import Mathlib

/-!
Verification of `scripts/generate_fa_pages.py` (CoWash-Template).

The script translates the visible text of HTML pages to Persian and writes
RTL variants.  We shallowly embed its components over `List Char` strings
and a mutually inductive HTML tree:

* `split_text` — the whitespace splitter (`str.strip`-based);
* `translate_remote` / `translateC` — the retrying translation client and
  its per-run cache (network attempts are an oracle, responses are a JSON
  value; `requests.RequestException` failures are `Attempt.fail`, response
  parsing follows Python's indexing/truthiness/join semantics);
* `collect_entries` — the extractor over the tree;
* `apply_translation` — reinjection (BeautifulSoup `replace_with` raises
  `ValueError` on a detached node, modelled by node handles: every parsed
  node carries `some id`, nodes created by the script carry `none` and are
  not addressable by any entry);
* `ensure_rtl_attributes` / `ensure_rtl_stylesheet` / `ensure_rtl_script` —
  the RTL markup adjuster;
* `discoverHtml` / `outName` / `runPipeline` — the orchestrator (file
  discovery and naming follow `pathlib` stem/suffix semantics; parsing is
  an external collaborator, so the pipeline consumes parsed trees).

Python errors that the script can raise are collected in `Err`.
-/

abbrev LC := List Char

def lc (s : String) : LC := s.toList

/-! ## Whitespace splitter (`split_text`, generate_fa_pages.py lines 25-33) -/

/-- Python whitespace for `str.strip()` (the ASCII whitespace characters). -/
def isPySpace (c : Char) : Bool :=
  c = ' ' || c = '\t' || c = '\n' || c = '\r' || c = '\x0b' || c = '\x0c'

/-- `text.lstrip()` -/
def pyLstrip (s : LC) : LC := s.dropWhile isPySpace

/-- `text.rstrip()` -/
def pyRstrip (s : LC) : LC := (s.reverse.dropWhile isPySpace).reverse

/-- `text.strip()` -/
def pyStrip (s : LC) : LC := pyRstrip (pyLstrip s)

/-- `split_text(text)`: all parts empty when the stripped text is empty,
otherwise `(text[:leading_len], stripped, text[len(text)-trailing_len:])`
with the trailing slice degraded to `""` when `trailing_len == 0`. -/
def split_text (text : LC) : LC × LC × LC :=
  if pyStrip text = [] then ([], [], [])
  else
    (text.take (text.length - (pyLstrip text).length),
     pyStrip text,
     if text.length - (pyRstrip text).length ≠ 0 then
       text.drop (text.length - (text.length - (pyRstrip text).length))
     else [])

/-! ## Python errors and the translation client
(`GoogleTranslateClient`, lines 77-116) -/

inductive Err where
  | typeError
  | indexError
  | keyError
  | valueError
  | attributeError
  /-- `RuntimeError("Translation failed after retries: ...")` carrying the last
  `requests.RequestException` (represented by an abstract cause id). -/
  | exhausted (last : Option Nat)
  deriving DecidableEq, Repr

/-- A JSON value, as returned by `response.json()`. -/
inductive Json where
  | null
  | bool (b : Bool)
  | num (n : Int)
  | str (s : LC)
  | arr (xs : List Json)

/-- Python truthiness of a JSON value (`if segment[0]`). -/
def jsonTruthy : Json → Bool
  | .null => false
  | .bool b => b
  | .num n => n != 0
  | .str s => !s.isEmpty
  | .arr xs => !xs.isEmpty

/-- Python `x[0]`: first element of a list, first character of a string
(as a one-character string), `IndexError` when empty, `TypeError` otherwise. -/
def pyIndex0 : Json → Except Err Json
  | .arr [] => .error .indexError
  | .arr (x :: _) => .ok x
  | .str [] => .error .indexError
  | .str (c :: _) => .ok (.str [c])
  | _ => .error .typeError

/-- Python `for segment in data0`: iteration over a JSON value. -/
def pyIterate : Json → Except Err (List Json)
  | .arr xs => .ok xs
  | .str s => .ok (s.map fun c => .str [c])
  | _ => .error .typeError

/-- `[segment[0] for segment in segs if segment[0]]` -/
def segmentComp : List Json → Except Err (List Json)
  | [] => .ok []
  | s :: rest =>
    match pyIndex0 s with
    | .error e => .error e
    | .ok x =>
      match segmentComp rest with
      | .error e => .error e
      | .ok r => .ok (if jsonTruthy x then x :: r else r)

/-- `"".join(parts)`: `TypeError` unless every part is a string. -/
def pyJoin : List Json → Except Err LC
  | [] => .ok []
  | j :: rest =>
    match j with
    | .str s =>
      match pyJoin rest with
      | .error e => .error e
      | .ok r => .ok (s ++ r)
    | _ => .error .typeError

/-- Parsing of a (transport-successful) response body:
`data[0]`, the segment comprehension, and the join. -/
def parseResponse (data : Json) : Except Err LC :=
  match pyIndex0 data with
  | .error e => .error e
  | .ok data0 =>
    match pyIterate data0 with
    | .error e => .error e
    | .ok segs =>
      match segmentComp segs with
      | .error e => .error e
      | .ok kept => pyJoin kept

/-- Outcome of one `session.get` + `raise_for_status` + `response.json()`:
either a `requests.RequestException` (network error, non-2xx status, or an
invalid-JSON body — all subclasses of `RequestException`) with an abstract
cause id, or a decoded JSON body. -/
inductive Attempt where
  | fail (cause : Nat)
  | ok (body : Json)

/-- The retry loop of `_translate_remote` over the listed attempt indices,
carrying `last_error`.  A parse failure of a successful response is not a
`RequestException` and escapes the loop immediately. -/
def remoteLoop (att : Nat → Attempt) : List Nat → Option Nat → Except Err LC
  | [], last => .error (.exhausted last)
  | i :: rest, _last =>
    match att i with
    | .fail c => remoteLoop att rest (some c)
    | .ok body =>
      match parseResponse body with
      | .ok t => .ok t
      | .error e => .error e

/-- `GoogleTranslateClient._translate_remote`: `for attempt in range(3)`. -/
def translate_remote (att : Nat → Attempt) : Except Err LC :=
  remoteLoop att [0, 1, 2] none

/-- Client state: the per-run cache (`self.cache`, a dict modelled as an
insertion-ordered association list) plus a count of remote calls issued. -/
structure CState where
  cache : List (LC × LC)
  calls : Nat
  deriving DecidableEq, Repr

def lookupCache : List (LC × LC) → LC → Option LC
  | [], _ => none
  | (k, v) :: rest, t => if k = t then some v else lookupCache rest t

/-- `GoogleTranslateClient.translate`: answer from the cache, otherwise call
the remote endpoint and record the result. -/
def translateC (remote : LC → Except Err LC) (st : CState) (t : LC) :
    Except Err (LC × CState) :=
  match lookupCache st.cache t with
  | some v => .ok (v, st)
  | none =>
    match remote t with
    | .ok tr => .ok (tr, ⟨st.cache ++ [(t, tr)], st.calls + 1⟩)
    | .error e => .error e

/-! ### List helpers for the splitter proofs -/

theorem dropWhile_len_le (p : Char → Bool) (l : LC) :
    (l.dropWhile p).length ≤ l.length := by
  have h := congrArg List.length (@List.takeWhile_append_dropWhile _ p l)
  rw [List.length_append] at h
  omega

theorem sub_dropWhile_len (p : Char → Bool) (l : LC) :
    l.length - (l.dropWhile p).length = (l.takeWhile p).length := by
  have h := congrArg List.length (@List.takeWhile_append_dropWhile _ p l)
  rw [List.length_append] at h
  omega

theorem take_len_of_decomp (s u v : LC) (k : Nat) (hs : s = u ++ v)
    (hk : k = u.length) : s.take k = u := by
  subst hk
  conv_lhs => rw [hs]
  exact List.take_left u v

theorem drop_len_of_decomp (s u v : LC) (k : Nat) (hs : s = u ++ v)
    (hk : k = u.length) : s.drop k = v := by
  subst hk
  conv_lhs => rw [hs]
  exact List.drop_left u v

theorem takeWhile_append_stop (p : Char → Bool) (x y : LC)
    (h : x.dropWhile p ≠ []) : (x ++ y).takeWhile p = x.takeWhile p := by
  induction x with
  | nil => simp at h
  | cons c x ih =>
    by_cases hc : p c
    · simp only [List.cons_append, List.takeWhile_cons, hc, if_true]
      simp only [List.dropWhile_cons, hc, if_true] at h
      rw [ih h]
    · simp only [List.cons_append, List.takeWhile_cons, hc]
      simp

/-- rstrip decomposition: a string is its rstrip followed by the reversed
whitespace prefix of its reverse. -/
theorem rstrip_decomp (s : LC) :
    s = pyRstrip s ++ (s.reverse.takeWhile isPySpace).reverse := by
  unfold pyRstrip
  conv_rhs => rw [← List.reverse_append]
  rw [List.takeWhile_append_dropWhile, List.reverse_reverse]

/-- Master decomposition for strings with non-blank content. -/
theorem strip_decomp (s : LC) (h : pyStrip s ≠ []) :
    s = s.takeWhile isPySpace ++ pyStrip s ++ (s.reverse.takeWhile isPySpace).reverse := by
  have hb : s = s.takeWhile isPySpace ++ pyLstrip s := by
    unfold pyLstrip
    exact (List.takeWhile_append_dropWhile isPySpace s).symm
  have hds : (pyLstrip s).reverse.dropWhile isPySpace ≠ [] := by
    intro hnil
    apply h
    unfold pyStrip pyRstrip
    rw [hnil, List.reverse_nil]
  have hrev : s.reverse.takeWhile isPySpace =
      (pyLstrip s).reverse.takeWhile isPySpace := by
    have h2 : s.reverse = (pyLstrip s).reverse ++ (s.takeWhile isPySpace).reverse := by
      conv_lhs => rw [hb]
      rw [List.reverse_append]
    rw [h2]
    exact takeWhile_append_stop isPySpace _ _ hds
  have hb2 : pyLstrip s =
      pyStrip s ++ ((pyLstrip s).reverse.takeWhile isPySpace).reverse := by
    unfold pyStrip
    exact rstrip_decomp (pyLstrip s)
  conv_lhs => rw [hb]
  rw [List.append_assoc]
  congr 1
  rw [hb2, hrev]

/-! ### C1: the splitter round-trips and empties exactly on blank input -/

/-- C1 amended, part 1: when the stripped text is nonempty the three parts
concatenate back to the input. -/
theorem split_text_append (s : LC) (h : pyStrip s ≠ []) :
    (split_text s).1 ++ (split_text s).2.1 ++ (split_text s).2.2 = s := by
  unfold split_text
  rw [if_neg h]
  have hdec := strip_decomp s h
  have htake : s.take (s.length - (pyLstrip s).length) = s.takeWhile isPySpace := by
    refine take_len_of_decomp s _ (pyStrip s ++ (s.reverse.takeWhile isPySpace).reverse) _ ?_ ?_
    · rw [← List.append_assoc]
      exact hdec
    · unfold pyLstrip
      exact sub_dropWhile_len isPySpace s
  by_cases ht : s.length - (pyRstrip s).length ≠ 0
  · rw [if_pos ht]
    have h1 : s.length - (s.length - (pyRstrip s).length) = (pyRstrip s).length := by
      have h2 : (pyRstrip s).length ≤ s.length := by
        unfold pyRstrip
        rw [List.length_reverse]
        calc (s.reverse.dropWhile isPySpace).length ≤ s.reverse.length :=
              dropWhile_len_le isPySpace s.reverse
          _ = s.length := List.length_reverse s
      omega
    have hdrop : s.drop (s.length - (s.length - (pyRstrip s).length)) =
        (s.reverse.takeWhile isPySpace).reverse :=
      drop_len_of_decomp s (pyRstrip s) _ _ (rstrip_decomp s) h1
    rw [htake, hdrop]
    exact hdec.symm
  · rw [if_neg ht]
    push_neg at ht
    have h2 : (pyRstrip s).length ≤ s.length := by
      unfold pyRstrip
      rw [List.length_reverse]
      calc (s.reverse.dropWhile isPySpace).length ≤ s.reverse.length :=
            dropWhile_len_le isPySpace s.reverse
        _ = s.length := List.length_reverse s
    have hrlen : (pyRstrip s).length = s.length := by omega
    have hc : (s.reverse.takeWhile isPySpace).reverse = [] := by
      have h3 := congrArg List.length (rstrip_decomp s)
      rw [List.length_append] at h3
      have h4 : (s.reverse.takeWhile isPySpace).reverse.length = 0 := by omega
      rw [List.length_eq_zero] at h4
      exact h4
    rw [htake, List.append_nil]
    have := hdec
    rw [hc, List.append_nil] at this
    exact this.symm

/-- C1 amended, part 2: the core is empty iff `strip` of the input is so,
and in the blank case all three outputs are empty. -/
theorem split_text_core_empty (s : LC) :
    ((split_text s).2.1 = [] ↔ pyStrip s = []) ∧
      (pyStrip s = [] → split_text s = ([], [], [])) := by
  constructor
  · unfold split_text
    by_cases h : pyStrip s = []
    · simp [h]
    · simp [h]
  · intro h
    unfold split_text
    simp [h]

/-- C1 counterexample: on the one-space string the code returns three empty
strings, so `leading ++ core ++ trailing` is empty while the input is not;
the claimed identity `lead ++ core ++ trail == s` fails for `s = " "`. -/
theorem split_text_claim_false_on_blank :
    ¬ ((split_text [' ']).1 ++ (split_text [' ']).2.1 ++ (split_text [' ']).2.2 = [' '] ∧
       ((split_text [' ']).2.1 = [] ↔ pyStrip [' '] = [])) := by
  intro hcl
  have h1 := hcl.1
  have h0 : (split_text [' ']).1 ++ (split_text [' ']).2.1 ++ (split_text [' ']).2.2
      = ([] : LC) := by rfl
  rw [h0] at h1
  exact List.noConfusion h1

/-- C1 amended, combined: the round-trip identity holds exactly on inputs
with non-blank content; on blank input all three outputs are empty; the core
is empty iff the stripped input is empty. -/
theorem split_text_spec (s : LC) :
    (pyStrip s ≠ [] → (split_text s).1 ++ (split_text s).2.1 ++ (split_text s).2.2 = s) ∧
      ((split_text s).2.1 = [] ↔ pyStrip s = []) ∧
      (pyStrip s = [] → split_text s = ([], [], [])) :=
  ⟨fun h => split_text_append s h, (split_text_core_empty s).1, (split_text_core_empty s).2⟩

theorem split_text_spec_witness :
    (split_text (lc " hi ")).1 ++ (split_text (lc " hi ")).2.1 ++
        (split_text (lc " hi ")).2.2 = lc " hi " :=
  (split_text_spec (lc " hi ")).1 (by decide)

/-! ### C2: failure modes of the translation client -/

theorem pyIndex0_error_shape (j : Json) (e : Err) (h : pyIndex0 j = .error e) :
    e = .typeError ∨ e = .indexError := by
  cases j with
  | null => simp [pyIndex0] at h; exact .inl h.symm
  | bool b => simp [pyIndex0] at h; exact .inl h.symm
  | num n => simp [pyIndex0] at h; exact .inl h.symm
  | str s =>
    cases s with
    | nil => simp [pyIndex0] at h; exact .inr h.symm
    | cons c cs => simp [pyIndex0] at h
  | arr xs =>
    cases xs with
    | nil => simp [pyIndex0] at h; exact .inr h.symm
    | cons x xs => simp [pyIndex0] at h

theorem pyIterate_error_shape (j : Json) (e : Err) (h : pyIterate j = .error e) :
    e = .typeError := by
  cases j with
  | null => simp [pyIterate] at h; exact h.symm
  | bool b => simp [pyIterate] at h; exact h.symm
  | num n => simp [pyIterate] at h; exact h.symm
  | str s => simp [pyIterate] at h
  | arr xs => simp [pyIterate] at h

theorem segmentComp_error_shape :
    ∀ (l : List Json) (e : Err), segmentComp l = .error e →
      e = .typeError ∨ e = .indexError := by
  intro l
  induction l with
  | nil => intro e h; simp [segmentComp] at h
  | cons s rest ih =>
    intro e h
    rw [segmentComp] at h
    cases hx : pyIndex0 s with
    | error e2 =>
      rw [hx] at h
      simp at h
      exact h ▸ pyIndex0_error_shape s e2 hx
    | ok x =>
      rw [hx] at h
      cases hr : segmentComp rest with
      | error e3 =>
        rw [hr] at h
        simp at h
        exact h ▸ ih e3 hr
      | ok r =>
        rw [hr] at h
        simp at h

theorem pyJoin_error_shape :
    ∀ (l : List Json) (e : Err), pyJoin l = .error e → e = .typeError := by
  intro l
  induction l with
  | nil => intro e h; simp [pyJoin] at h
  | cons j rest ih =>
    intro e h
    cases j with
    | str s =>
      cases hr : pyJoin rest with
      | error e2 =>
        simp [pyJoin, hr] at h
        exact h ▸ ih e2 hr
      | ok r => simp [pyJoin, hr] at h
    | null => simp [pyJoin] at h; exact h.symm
    | bool b => simp [pyJoin] at h; exact h.symm
    | num n => simp [pyJoin] at h; exact h.symm
    | arr xs => simp [pyJoin] at h; exact h.symm

theorem parseResponse_error_shape (d : Json) (e : Err)
    (h : parseResponse d = .error e) : e = .typeError ∨ e = .indexError := by
  cases h0 : pyIndex0 d with
  | error e0 =>
    simp [parseResponse, h0] at h
    exact h ▸ pyIndex0_error_shape d _ h0
  | ok d0 =>
    cases h1 : pyIterate d0 with
    | error e1 =>
      simp [parseResponse, h0, h1] at h
      exact h ▸ .inl (pyIterate_error_shape d0 _ h1)
    | ok segs =>
      cases h2 : segmentComp segs with
      | error e2 =>
        simp [parseResponse, h0, h1, h2] at h
        exact h ▸ segmentComp_error_shape segs _ h2
      | ok kept =>
        simp only [parseResponse, h0, h1, h2] at h
        exact .inl (pyJoin_error_shape kept e h)

/-- The remote call never produces an exhaustion error from response parsing. -/
theorem parseResponse_error_ne_exhausted (d : Json) (e : Err) (l : Option Nat)
    (h : parseResponse d = .error e) : e ≠ .exhausted l := by
  rcases parseResponse_error_shape d e h with h1 | h1 <;> subst h1 <;>
    exact fun hc => Err.noConfusion hc

/-- C2 amended:
1. three transport failures produce the terminal error carrying the last cause;
2. a terminal error arises only that way;
3. any other escaping failure is an uncaught response-parsing error of a
   transport-successful attempt. -/
theorem translate_remote_spec (att : Nat → Attempt) :
    (∀ c0 c1 c2, att 0 = .fail c0 → att 1 = .fail c1 → att 2 = .fail c2 →
        translate_remote att = .error (.exhausted (some c2))) ∧
    (∀ l, translate_remote att = .error (.exhausted l) →
        ∃ c0 c1 c2, att 0 = .fail c0 ∧ att 1 = .fail c1 ∧ att 2 = .fail c2 ∧
          l = some c2) ∧
    (∀ e, translate_remote att = .error e → (∀ l, e ≠ .exhausted l) →
        ∃ i, i < 3 ∧ ∃ b, att i = .ok b ∧ parseResponse b = .error e) := by
  refine ⟨?_, ?_, ?_⟩
  · intro c0 c1 c2 h0 h1 h2
    simp [translate_remote, remoteLoop, h0, h1, h2]
  · intro l hl
    cases h0 : att 0 with
    | ok b0 =>
      cases hp0 : parseResponse b0 with
      | ok t => simp [translate_remote, remoteLoop, h0, hp0] at hl
      | error e0 =>
        simp [translate_remote, remoteLoop, h0, hp0] at hl
        exact absurd hl (parseResponse_error_ne_exhausted b0 e0 l hp0)
    | fail c0 =>
      cases h1 : att 1 with
      | ok b1 =>
        cases hp1 : parseResponse b1 with
        | ok t => simp [translate_remote, remoteLoop, h0, h1, hp1] at hl
        | error e1 =>
          simp [translate_remote, remoteLoop, h0, h1, hp1] at hl
          exact absurd hl (parseResponse_error_ne_exhausted b1 e1 l hp1)
      | fail c1 =>
        cases h2 : att 2 with
        | ok b2 =>
          cases hp2 : parseResponse b2 with
          | ok t => simp [translate_remote, remoteLoop, h0, h1, h2, hp2] at hl
          | error e2 =>
            simp [translate_remote, remoteLoop, h0, h1, h2, hp2] at hl
            exact absurd hl (parseResponse_error_ne_exhausted b2 e2 l hp2)
        | fail c2 =>
          simp [translate_remote, remoteLoop, h0, h1, h2] at hl
          exact ⟨c0, c1, c2, rfl, rfl, rfl, hl.symm⟩
  · intro e hl he
    cases h0 : att 0 with
    | ok b0 =>
      cases hp0 : parseResponse b0 with
      | ok t => simp [translate_remote, remoteLoop, h0, hp0] at hl
      | error e0 =>
        simp [translate_remote, remoteLoop, h0, hp0] at hl
        exact ⟨0, by omega, b0, h0, hl ▸ hp0⟩
    | fail c0 =>
      cases h1 : att 1 with
      | ok b1 =>
        cases hp1 : parseResponse b1 with
        | ok t => simp [translate_remote, remoteLoop, h0, h1, hp1] at hl
        | error e1 =>
          simp [translate_remote, remoteLoop, h0, h1, hp1] at hl
          exact ⟨1, by omega, b1, h1, hl ▸ hp1⟩
      | fail c1 =>
        cases h2 : att 2 with
        | ok b2 =>
          cases hp2 : parseResponse b2 with
          | ok t => simp [translate_remote, remoteLoop, h0, h1, h2, hp2] at hl
          | error e2 =>
            simp [translate_remote, remoteLoop, h0, h1, h2, hp2] at hl
            exact ⟨2, by omega, b2, h2, hl ▸ hp2⟩
        | fail c2 =>
          simp [translate_remote, remoteLoop, h0, h1, h2] at hl
          exact absurd hl.symm (he (some c2))

theorem translate_remote_spec_witness :
    translate_remote (fun i => Attempt.fail (10 + i)) = .error (.exhausted (some 12)) :=
  (translate_remote_spec (fun i => Attempt.fail (10 + i))).1 10 11 12 rfl rfl rfl

/-- An attempt oracle whose first attempt succeeds at the transport level but
returns a well-formed-JSON body of the wrong shape (`5`): `data[0]` raises an
uncaught `TypeError` on the first attempt. -/
def attBadBody : Nat → Attempt := fun _ => .ok (.num 5)

theorem translate_remote_attBadBody :
    translate_remote attBadBody = .error .typeError := rfl

/-- C2 counterexample: with a transport-successful first attempt carrying a
malformed body, `translate` neither returns a translation nor fails with the
terminal retry-exhaustion error: an uncaught `TypeError` escapes after a
single attempt, so the claimed dichotomy is false. -/
theorem translate_remote_claim_false :
    ¬ ((∃ t, translate_remote attBadBody = .ok t) ∨
       (∃ l, translate_remote attBadBody = .error (.exhausted l))) := by
  rintro (⟨t, ht⟩ | ⟨l, hl⟩)
  · rw [translate_remote_attBadBody] at ht
    exact Except.noConfusion ht
  · rw [translate_remote_attBadBody] at hl
    have h2 : Err.typeError = Err.exhausted l := Except.error.inj hl
    exact Err.noConfusion h2

/-! ## Translatable units and the per-run dedup of `translate_texts`
(lines 119-127).  A unit references its tree node (text node handle, or
element handle plus attribute name) and carries the split parts. -/

inductive Entry where
  | text (id : Option Nat) (leading content trailing : LC)
  | attr (id : Option Nat) (name : LC) (leading content trailing : LC)
  deriving DecidableEq, Repr

def Entry.content : Entry → LC
  | .text _ _ c _ => c
  | .attr _ _ _ c _ => c

/-- The key sequence of the `unique_strings` dict: first occurrences in
order, duplicates removed. -/
def dedupFuel : Nat → List LC → List LC
  | _, [] => []
  | 0, _ :: _ => []
  | fuel + 1, t :: rest => t :: dedupFuel fuel (rest.filter (fun x => x ≠ t))

def dedupFirst (l : List LC) : List LC := dedupFuel l.length l

theorem dedupFuel_ext (f1 : Nat) : ∀ (f2 : Nat) (l : List LC),
    l.length ≤ f1 → l.length ≤ f2 → dedupFuel f1 l = dedupFuel f2 l := by
  induction f1 with
  | zero =>
    intro f2 l h1 _
    have hl : l = [] := List.length_eq_zero.mp (Nat.le_zero.mp h1)
    subst hl
    cases f2 <;> rfl
  | succ f ih =>
    intro f2 l h1 h2
    cases l with
    | nil => cases f2 <;> rfl
    | cons t rest =>
      cases f2 with
      | zero => exact absurd h2 (by simp)
      | succ f2p =>
        rw [dedupFuel, dedupFuel]
        have hr1 : rest.length ≤ f := by
          rw [List.length_cons] at h1
          omega
        have hr2 : rest.length ≤ f2p := by
          rw [List.length_cons] at h2
          omega
        congr 1
        exact ih f2p (rest.filter (fun x => x ≠ t))
          (le_trans (List.length_filter_le _ _) hr1)
          (le_trans (List.length_filter_le _ _) hr2)

theorem dedupFirst_cons (t : LC) (rest : List LC) :
    dedupFirst (t :: rest) = t :: dedupFirst (rest.filter (fun x => x ≠ t)) := by
  unfold dedupFirst
  rw [List.length_cons, dedupFuel]
  congr 1
  exact dedupFuel_ext rest.length _ _ (List.length_filter_le _ _) (le_refl _)

/-- The loop `for text in unique_strings: unique_strings[text] = translator.translate(text)`;
also the shape of any sequence of `translate` calls against one client. -/
def translateList (remote : LC → Except Err LC) (st : CState) :
    List LC → Except Err (List (LC × LC) × CState)
  | [] => .ok ([], st)
  | t :: rest =>
    match translateC remote st t with
    | .error e => .error e
    | .ok (v, st2) =>
      match translateList remote st2 rest with
      | .error e => .error e
      | .ok (assigns, st3) => .ok ((t, v) :: assigns, st3)

theorem mem_dedupFirst : ∀ (l : List LC) (x : LC), x ∈ dedupFirst l → x ∈ l
  | [], x, h => by simp [dedupFirst, dedupFuel] at h
  | t :: rest, x, h => by
    rw [dedupFirst_cons] at h
    rcases List.mem_cons.mp h with h1 | h2
    · exact h1 ▸ List.mem_cons_self t rest
    · have hm := mem_dedupFirst (rest.filter (fun x => x ≠ t)) x h2
      exact List.mem_cons_of_mem t (List.mem_of_mem_filter hm)
termination_by l => l.length
decreasing_by exact Nat.lt_succ_of_le (List.length_filter_le _ _)

theorem dedupFirst_nodup : ∀ (l : List LC), (dedupFirst l).Nodup
  | [] => by simp [dedupFirst, dedupFuel]
  | t :: rest => by
    rw [dedupFirst_cons]
    refine List.nodup_cons.mpr ⟨?_, dedupFirst_nodup _⟩
    intro hmem
    have hx := mem_dedupFirst _ _ hmem
    have hp := List.of_mem_filter hx
    simp at hp
termination_by l => l.length
decreasing_by exact Nat.lt_succ_of_le (List.length_filter_le _ _)

theorem lookupCache_append_none (c : List (LC × LC)) (p : LC × LC) (x : LC)
    (h : lookupCache c x = none) :
    lookupCache (c ++ [p]) x = if p.1 = x then some p.2 else none := by
  induction c with
  | nil => rfl
  | cons q rest ih =>
    obtain ⟨k, w⟩ := q
    rw [lookupCache] at h
    by_cases hq : k = x
    · simp [hq] at h
    · simp only [hq, if_false] at h
      rw [List.cons_append, lookupCache]
      simp only [hq, if_false]
      exact ih h

/-- Processing a list of pairwise-distinct, uncached strings from any client
state: every string issues exactly one remote call and is appended to the
cache. -/
theorem translateList_fresh (remote : LC → Except Err LC)
    (hok : ∀ t, ∃ v, remote t = .ok v) :
    ∀ (ts : List LC) (st : CState),
      (∀ t ∈ ts, lookupCache st.cache t = none) → ts.Nodup →
      ∃ assigns st2, translateList remote st ts = .ok (assigns, st2) ∧
        st2.calls = st.calls + ts.length ∧
        st2.cache.map Prod.fst = st.cache.map Prod.fst ++ ts := by
  intro ts
  induction ts with
  | nil =>
    intro st _ _
    exact ⟨[], st, rfl, by simp, by simp⟩
  | cons t rest ih =>
    intro st hnone hnd
    obtain ⟨v, hv⟩ := hok t
    have hmiss : lookupCache st.cache t = none := hnone t (List.mem_cons_self t rest)
    have hstep : translateC remote st t =
        .ok (v, ⟨st.cache ++ [(t, v)], st.calls + 1⟩) := by
      unfold translateC
      rw [hmiss, hv]
    have hnd2 := List.nodup_cons.mp hnd
    have hnone2 : ∀ x ∈ rest, lookupCache (st.cache ++ [(t, v)]) x = none := by
      intro x hx
      rw [lookupCache_append_none st.cache (t, v) x (hnone x (List.mem_cons_of_mem t hx))]
      have : t ≠ x := fun he => hnd2.1 (he ▸ hx)
      simp [this]
    obtain ⟨assigns, st3, hrun, hcalls, hkeys⟩ :=
      ih ⟨st.cache ++ [(t, v)], st.calls + 1⟩ hnone2 hnd2.2
    refine ⟨(t, v) :: assigns, st3, ?_, ?_, ?_⟩
    · simp [translateList, hstep, hrun]
    · rw [hcalls]
      simp
      omega
    · rw [hkeys]
      simp

/-! ### C3: per-run deduplication of remote calls -/

/-- C3: a cache hit answers immediately with no remote call and no state
change; and running the `translate_texts` translation loop for entries with
`K` distinct content strings on a fresh client issues exactly `K` remote
calls (one per distinct string), regardless of the number of entries. -/
theorem translate_cache_spec (remote : LC → Except Err LC) (es : List Entry)
    (hok : ∀ t, ∃ v, remote t = .ok v) :
    (∀ st t v, lookupCache st.cache t = some v → translateC remote st t = .ok (v, st)) ∧
    (∃ assigns st2,
        translateList remote ⟨[], 0⟩ (dedupFirst (es.map Entry.content)) =
          .ok (assigns, st2) ∧
        st2.calls = (dedupFirst (es.map Entry.content)).length ∧
        st2.cache.map Prod.fst = dedupFirst (es.map Entry.content)) := by
  constructor
  · intro st t v h
    unfold translateC
    rw [h]
  · obtain ⟨assigns, st2, hrun, hcalls, hkeys⟩ :=
      translateList_fresh remote hok (dedupFirst (es.map Entry.content)) ⟨[], 0⟩
        (fun t _ => rfl) (dedupFirst_nodup _)
    exact ⟨assigns, st2, hrun, by simpa using hcalls, by simpa using hkeys⟩

theorem translate_cache_spec_witness :
    translateC (fun t => .ok t) ⟨[(lc "a", lc "b")], 5⟩ (lc "a") =
      .ok (lc "b", ⟨[(lc "a", lc "b")], 5⟩) :=
  (translate_cache_spec (fun t => .ok t)
      [Entry.text (some 0) [] (lc "Hello") [], Entry.text (some 1) [] (lc "Hello") []]
      (fun t => ⟨t, rfl⟩)).1
    ⟨[(lc "a", lc "b")], 5⟩ (lc "a") (lc "b") (by decide)

/-! ## The parsed HTML tree (BeautifulSoup document model)

Node handles model bs4 object identity: every node of a parsed document
carries `some id` (all distinct), nodes created by the script itself carry
`none` and are never referenced by a `TranslatableUnit`.  Attribute values
are strings, except multi-valued attributes (`class`) which parse to string
lists. -/

inductive AttrVal where
  | str (s : LC)
  | lst (ls : List LC)
  deriving DecidableEq, Repr

mutual
inductive HNode where
  | elem (id : Option Nat) (name : LC) (attrs : List (LC × AttrVal)) (children : HForest)
  | text (id : Option Nat) (s : LC)
  | comment (id : Option Nat) (s : LC)
  | doctype (id : Option Nat) (s : LC)
  deriving DecidableEq, Repr
inductive HForest where
  | nil
  | cons (n : HNode) (f : HForest)
  deriving DecidableEq, Repr
end

def HForest.append : HForest → HForest → HForest
  | .nil, g => g
  | .cons n f, g => .cons n (f.append g)

/-- Attribute lookup in a tag's attribute dict (`element.get(a)`). -/
def getAttr : List (LC × AttrVal) → LC → Option AttrVal
  | [], _ => none
  | (k, v) :: rest, a => if k = a then some v else getAttr rest a

/-- Attribute assignment (`element[a] = v`): dict update keeps the key's
position, a new key is appended. -/
def setAttr : List (LC × AttrVal) → LC → AttrVal → List (LC × AttrVal)
  | [], a, v => [(a, v)]
  | (k, w) :: rest, a, v =>
    if k = a then (k, v) :: rest else (k, w) :: setAttr rest a v

def isElemNamed (nm : LC) : HNode → Bool
  | .elem _ n _ _ => n = nm
  | .text _ _ => false
  | .comment _ _ => false
  | .doctype _ _ => false

def nodeAttr (n : HNode) (a : LC) : Option AttrVal :=
  match n with
  | .elem _ _ ats _ => getAttr ats a
  | _ => none

/-! Pre-order search over all descendants (`soup.find_all` membership). -/
mutual
def existsNodeN (p : HNode → Bool) : HNode → Bool
  | .elem i nm ats cs => p (.elem i nm ats cs) || existsNodeF p cs
  | .text i s => p (.text i s)
  | .comment i s => p (.comment i s)
  | .doctype i s => p (.doctype i s)
def existsNodeF (p : HNode → Bool) : HForest → Bool
  | .nil => false
  | .cons n f => existsNodeN p n || existsNodeF p f
end

/-! Pre-order first match (`soup.find`). -/
mutual
def findFirstN (p : HNode → Bool) : HNode → Option HNode
  | .elem i nm ats cs =>
    if p (.elem i nm ats cs) then some (.elem i nm ats cs) else findFirstF p cs
  | .text i s => if p (.text i s) then some (.text i s) else none
  | .comment i s => if p (.comment i s) then some (.comment i s) else none
  | .doctype i s => if p (.doctype i s) then some (.doctype i s) else none
def findFirstF (p : HNode → Bool) : HForest → Option HNode
  | .nil => none
  | .cons n f =>
    match findFirstN p n with
    | some m => some m
    | none => findFirstF p f
end

/-! In-place mutation of the first pre-order match (`soup.find(...)` followed
by mutation of the found tag); `none` when there is no match. -/
mutual
def mapFirstN (p : HNode → Bool) (g : HNode → HNode) : HNode → Option HNode
  | .elem i nm ats cs =>
    if p (.elem i nm ats cs) then some (g (.elem i nm ats cs))
    else
      match mapFirstF p g cs with
      | some cs2 => some (.elem i nm ats cs2)
      | none => none
  | .text i s => if p (.text i s) then some (g (.text i s)) else none
  | .comment i s => if p (.comment i s) then some (g (.comment i s)) else none
  | .doctype i s => if p (.doctype i s) then some (g (.doctype i s)) else none
def mapFirstF (p : HNode → Bool) (g : HNode → HNode) : HForest → Option HForest
  | .nil => none
  | .cons n f =>
    match mapFirstN p g n with
    | some n2 => some (.cons n2 f)
    | none =>
      match mapFirstF p g f with
      | some f2 => some (.cons n f2)
      | none => none
end

/-! Like `mapFirstN`/`mapFirstF` but the mutation itself can raise. -/
mutual
def mapFirstEN (p : HNode → Bool) (g : HNode → Except Err HNode) :
    HNode → Except Err (Option HNode)
  | .elem i nm ats cs =>
    if p (.elem i nm ats cs) then
      match g (.elem i nm ats cs) with
      | .error e => .error e
      | .ok n2 => .ok (some n2)
    else
      match mapFirstEF p g cs with
      | .error e => .error e
      | .ok (some cs2) => .ok (some (.elem i nm ats cs2))
      | .ok none => .ok none
  | .text i s =>
    if p (.text i s) then
      match g (.text i s) with
      | .error e => .error e
      | .ok n2 => .ok (some n2)
    else .ok none
  | .comment i s =>
    if p (.comment i s) then
      match g (.comment i s) with
      | .error e => .error e
      | .ok n2 => .ok (some n2)
    else .ok none
  | .doctype i s =>
    if p (.doctype i s) then
      match g (.doctype i s) with
      | .error e => .error e
      | .ok n2 => .ok (some n2)
    else .ok none
def mapFirstEF (p : HNode → Bool) (g : HNode → Except Err HNode) :
    HForest → Except Err (Option HForest)
  | .nil => .ok none
  | .cons n f =>
    match mapFirstEN p g n with
    | .error e => .error e
    | .ok (some n2) => .ok (some (.cons n2 f))
    | .ok none =>
      match mapFirstEF p g f with
      | .error e => .error e
      | .ok (some f2) => .ok (some (.cons n f2))
      | .ok none => .ok none
end

/-! `found.insert_after(r)` for the first pre-order match of `p`: the new
node becomes the next sibling of the match, inside the match's parent. -/
mutual
def insAfterN (p : HNode → Bool) (r : HNode) : HNode → Option HNode
  | .elem i nm ats cs =>
    match insAfterF p r cs with
    | some cs2 => some (.elem i nm ats cs2)
    | none => none
  | .text _ _ => none
  | .comment _ _ => none
  | .doctype _ _ => none
def insAfterF (p : HNode → Bool) (r : HNode) : HForest → Option HForest
  | .nil => none
  | .cons n f =>
    if p n then some (.cons n (.cons r f))
    else
      match insAfterN p r n with
      | some n2 => some (.cons n2 f)
      | none =>
        match insAfterF p r f with
        | some f2 => some (.cons n f2)
        | none => none
end

/-! ## Extractor (`collect_entries`, lines 36-74) -/

def EXCLUDED_TEXT_PARENTS : List LC := [lc "script", lc "style"]

def ATTRS_TO_TRANSLATE : List LC :=
  [lc "placeholder", lc "title", lc "alt", lc "aria-label", lc "value"]

/-- The name of the parent of a top-level string: the soup object itself,
`"[document]"`. -/
def docRootName : LC := lc "[document]"

/-! Text-node pass of `collect_entries`: `soup.find_all(string=True)` yields
all strings in document order; `Comment`/`Doctype` instances are skipped, as
are strings whose parent element is a script or style element and strings
that are empty after stripping. -/
mutual
def collectTextN (parent : LC) : HNode → List Entry
  | .elem _ nm _ cs => collectTextF nm cs
  | .text i s =>
    if parent ∈ EXCLUDED_TEXT_PARENTS then []
    else if pyStrip s = [] then []
    else [.text i (split_text s).1 (split_text s).2.1 (split_text s).2.2]
  | .comment _ _ => []
  | .doctype _ _ => []
def collectTextF (parent : LC) : HForest → List Entry
  | .nil => []
  | .cons n f => collectTextN parent n ++ collectTextF parent f
end

/-- Attribute pass, per element: `value = element.get(attr)`;
`if not value or not value.strip(): continue`.  A falsy value (empty string
or empty list) is skipped; `value.strip()` on a non-empty multi-valued
(list) attribute raises `AttributeError`. -/
def attrEntryOf (i : Option Nat) (a : LC) (v : AttrVal) : Except Err (List Entry) :=
  match v with
  | .str s =>
    if s.isEmpty then .ok []
    else if pyStrip s = [] then .ok []
    else .ok [.attr i a (split_text s).1 (split_text s).2.1 (split_text s).2.2]
  | .lst ls =>
    if ls.isEmpty then .ok []
    else .error .attributeError

/-! Attribute pass of `collect_entries`: for one attribute name,
`soup.find_all(attrs={attr: True})` yields the elements carrying the
attribute, in document order. -/
mutual
def collectAttrN (a : LC) : HNode → Except Err (List Entry)
  | .elem i _ ats cs =>
    match getAttr ats a with
    | none => collectAttrF a cs
    | some v =>
      match attrEntryOf i a v with
      | .error e => .error e
      | .ok es1 =>
        match collectAttrF a cs with
        | .error e => .error e
        | .ok es2 => .ok (es1 ++ es2)
  | .text _ _ => .ok []
  | .comment _ _ => .ok []
  | .doctype _ _ => .ok []
def collectAttrF (a : LC) : HForest → Except Err (List Entry)
  | .nil => .ok []
  | .cons n f =>
    match collectAttrN a n with
    | .error e => .error e
    | .ok es1 =>
      match collectAttrF a f with
      | .error e => .error e
      | .ok es2 => .ok (es1 ++ es2)
end

def collectAttrs (doc : HForest) : List LC → Except Err (List Entry)
  | [] => .ok []
  | a :: rest =>
    match collectAttrF a doc with
    | .error e => .error e
    | .ok es1 =>
      match collectAttrs doc rest with
      | .error e => .error e
      | .ok es2 => .ok (es1 ++ es2)

/-- `collect_entries(soup)`: text entries in document order, then attribute
entries grouped by attribute name. -/
def collect_entries (doc : HForest) : Except Err (List Entry) :=
  match collectAttrs doc ATTRS_TO_TRANSLATE with
  | .error e => .error e
  | .ok attrEs => .ok (collectTextF docRootName doc ++ attrEs)

/-! ## Reinjector (`apply_translation`, lines 130-137)

`node.replace_with(new_value)` detaches the old `NavigableString` and puts a
fresh one (handle `none`) in its place; calling it on a node that is no
longer in the tree raises `ValueError`. -/

mutual
def replaceTextN (tid : Nat) (newS : LC) : HNode → Option HNode
  | .elem i nm ats cs =>
    match replaceTextF tid newS cs with
    | some cs2 => some (.elem i nm ats cs2)
    | none => none
  | .text i s => if i = some tid then some (.text none newS) else none
  | .comment _ _ => none
  | .doctype _ _ => none
def replaceTextF (tid : Nat) (newS : LC) : HForest → Option HForest
  | .nil => none
  | .cons n f =>
    match replaceTextN tid newS n with
    | some n2 => some (.cons n2 f)
    | none =>
      match replaceTextF tid newS f with
      | some f2 => some (.cons n f2)
      | none => none
end

def elemIdIs (eid : Nat) : HNode → Bool
  | .elem i _ _ _ => i = some eid
  | .text _ _ => false
  | .comment _ _ => false
  | .doctype _ _ => false

def setNodeAttr (a : LC) (v : AttrVal) : HNode → HNode
  | .elem i nm ats cs => .elem i nm (setAttr ats a v) cs
  | .text i s => .text i s
  | .comment i s => .comment i s
  | .doctype i s => .doctype i s

/-- `apply_translation(entry, translated_text)`.  For a text unit the
referenced string node is replaced; a unit whose node handle is no longer in
the tree raises `ValueError` (bs4: replacing a detached element).  For an
attribute unit the element's attribute is assigned (assignment on an element
that is not in the tree mutates only the detached object, leaving the
document unchanged; it never raises). -/
def apply_translation (e : Entry) (translated : LC) (doc : HForest) :
    Except Err HForest :=
  match e with
  | .text i leading _ trailing =>
    match i with
    | some tid =>
      match replaceTextF tid (leading ++ translated ++ trailing) doc with
      | some d2 => .ok d2
      | none => .error .valueError
    | none => .error .valueError
  | .attr i a leading _ trailing =>
    match i with
    | some eid =>
      match mapFirstF (elemIdIs eid)
          (setNodeAttr a (.str (leading ++ translated ++ trailing))) doc with
      | some d2 => .ok d2
      | none => .ok doc
    | none => .ok doc

/-- The reinjection loop of `translate_texts`:
`apply_translation(entry, unique_strings[entry["content"]])`. -/
def applyAll (assigns : List (LC × LC)) : List Entry → HForest → Except Err HForest
  | [], d => .ok d
  | e :: rest, d =>
    match lookupCache assigns e.content with
    | some v =>
      match apply_translation e v d with
      | .error err => .error err
      | .ok d2 => applyAll assigns rest d2
    | none => .error .keyError

/-- `translate_texts(entries, translator)`: dedup the contents into the
`unique_strings` dict, translate each key, then reinject every entry. -/
def translate_texts (remote : LC → Except Err LC) (st : CState)
    (es : List Entry) (doc : HForest) : Except Err (HForest × CState) :=
  match translateList remote st (dedupFirst (es.map Entry.content)) with
  | .error e => .error e
  | .ok (assigns, st2) =>
    match applyAll assigns es doc with
    | .error e => .error e
    | .ok d2 => .ok (d2, st2)

/-! ## RTL markup adjuster (lines 140-183) -/

/-- The html-tag half of `ensure_rtl_attributes`:
`html_tag["lang"] = "fa"; html_tag["dir"] = "rtl"`. -/
def fHtmlAttrs : HNode → HNode
  | .elem i nm ats cs =>
    .elem i nm
      (setAttr (setAttr ats (lc "lang") (.str (lc "fa"))) (lc "dir") (.str (lc "rtl"))) cs
  | .text i s => .text i s
  | .comment i s => .comment i s
  | .doctype i s => .doctype i s

def htmlPhase (doc : HForest) : HForest :=
  match mapFirstF (isElemNamed (lc "html")) fHtmlAttrs doc with
  | some d2 => d2
  | none => doc

/-- Python substring membership `needle in hay` for strings. -/
def containsSub (needle : LC) : LC → Bool
  | [] => needle.isEmpty
  | c :: rest => List.isPrefixOf needle (c :: rest) || containsSub needle rest

/-- The body-tag half of `ensure_rtl_attributes`: set `dir`, then
`classes = body_tag.get("class", [])`, append `"rtl-body"` if absent.  On a
parsed document `class` is multi-valued (a list); on a string-valued class,
`in` is a substring test and `.append` raises `AttributeError`. -/
def fBodyAttrs : HNode → Except Err HNode
  | .elem i nm ats cs =>
    match getAttr (setAttr ats (lc "dir") (.str (lc "rtl"))) (lc "class") with
    | none =>
      .ok (.elem i nm
        (setAttr (setAttr ats (lc "dir") (.str (lc "rtl"))) (lc "class")
          (.lst [lc "rtl-body"])) cs)
    | some (.lst ls) =>
      if lc "rtl-body" ∈ ls then
        .ok (.elem i nm (setAttr ats (lc "dir") (.str (lc "rtl"))) cs)
      else
        .ok (.elem i nm
          (setAttr (setAttr ats (lc "dir") (.str (lc "rtl"))) (lc "class")
            (.lst (ls ++ [lc "rtl-body"]))) cs)
    | some (.str s) =>
      if containsSub (lc "rtl-body") s then
        .ok (.elem i nm (setAttr ats (lc "dir") (.str (lc "rtl"))) cs)
      else .error .attributeError
  | .text i s => .ok (.text i s)
  | .comment i s => .ok (.comment i s)
  | .doctype i s => .ok (.doctype i s)

def bodyPhase (doc : HForest) : Except Err HForest :=
  match mapFirstEF (isElemNamed (lc "body")) fBodyAttrs doc with
  | .error e => .error e
  | .ok (some d2) => .ok d2
  | .ok none => .ok doc

/-- `ensure_rtl_attributes(soup)`. -/
def ensure_rtl_attributes (doc : HForest) : Except Err HForest :=
  bodyPhase (htmlPhase doc)

/-- bs4 attribute matching for `find(..., attrs={a: val})`: a string query
matches a string value by equality and a multi-valued attribute if it equals
one of the items. -/
def attrMatches (n : HNode) (a : LC) (val : LC) : Bool :=
  match nodeAttr n a with
  | some (.str s) => s = val
  | some (.lst ls) => val ∈ ls
  | none => false

def newLink : HNode :=
  .elem none (lc "link")
    [(lc "rel", .lst [lc "stylesheet"]), (lc "href", .str (lc "css/rtl.css"))] .nil

def isRtlLink (n : HNode) : Bool :=
  isElemNamed (lc "link") n && attrMatches n (lc "href") (lc "css/rtl.css")

def isStyleLink (n : HNode) : Bool :=
  isElemNamed (lc "link") n && attrMatches n (lc "href") (lc "css/style.css")

/-- The head mutation of `ensure_rtl_stylesheet`: return unchanged when an
rtl link exists among the head's descendants, otherwise insert the new link
after the style link if found, else append it to the head's children. -/
def fHead : HNode → HNode
  | .elem i nm ats cs =>
    if existsNodeF isRtlLink cs then .elem i nm ats cs
    else
      match insAfterF isStyleLink newLink cs with
      | some cs2 => .elem i nm ats cs2
      | none => .elem i nm ats (cs.append (.cons newLink .nil))
  | .text i s => .text i s
  | .comment i s => .comment i s
  | .doctype i s => .doctype i s

/-- `ensure_rtl_stylesheet(soup)`: no-op without a head element. -/
def ensure_rtl_stylesheet (doc : HForest) : HForest :=
  match mapFirstF (isElemNamed (lc "head")) fHead doc with
  | some d2 => d2
  | none => doc

def rtlScriptTag : HNode :=
  .elem none (lc "script") [(lc "src", .str (lc "js/rtl.js"))] .nil

/-- `tag.get("src") == "js/rtl.js"` over `find_all("script", attrs={"src": True})`:
equality of the string value (a multi-valued value never equals a string). -/
def srcEqRtl (n : HNode) : Bool :=
  isElemNamed (lc "script") n &&
    (match nodeAttr n (lc "src") with
     | some (.str s) => s = lc "js/rtl.js"
     | some (.lst _) => false
     | none => false)

def isMainScript (n : HNode) : Bool :=
  isElemNamed (lc "script") n && attrMatches n (lc "src") (lc "js/main.js")

/-- The body mutation of `ensure_rtl_script`. -/
def fBodyScript : HNode → HNode
  | .elem i nm ats cs =>
    if existsNodeF srcEqRtl cs then .elem i nm ats cs
    else
      match insAfterF isMainScript rtlScriptTag cs with
      | some cs2 => .elem i nm ats cs2
      | none => .elem i nm ats (cs.append (.cons rtlScriptTag .nil))
  | .text i s => .text i s
  | .comment i s => .comment i s
  | .doctype i s => .doctype i s

/-- `ensure_rtl_script(soup)`: no-op without a body element. -/
def ensure_rtl_script (doc : HForest) : HForest :=
  match mapFirstF (isElemNamed (lc "body")) fBodyScript doc with
  | some d2 => d2
  | none => doc

/-- The per-document adjustment sequence of `main`. -/
def adjustDoc (doc : HForest) : Except Err HForest :=
  match ensure_rtl_attributes doc with
  | .error e => .error e
  | .ok d1 => .ok (ensure_rtl_script (ensure_rtl_stylesheet d1))

/-! ### C7: extracted units always carry non-blank content -/

theorem attrEntryOf_content (i : Option Nat) (a : LC) (v : AttrVal) (es : List Entry)
    (h : attrEntryOf i a v = .ok es) : ∀ e ∈ es, e.content ≠ [] := by
  intro e he
  cases v with
  | str s =>
    by_cases h1 : s.isEmpty
    · simp [attrEntryOf, h1] at h
      subst h
      simp at he
    · by_cases h2 : pyStrip s = []
      · simp [attrEntryOf, h1, h2] at h
        subst h
        simp at he
      · simp [attrEntryOf, h1, h2] at h
        subst h
        simp at he
        subst he
        intro hc
        simp [Entry.content] at hc
        exact h2 ((split_text_core_empty s).1.mp hc)
  | lst ls =>
    by_cases h1 : ls.isEmpty
    · simp [attrEntryOf, h1] at h
      subst h
      simp at he
    · simp [attrEntryOf, h1] at h

mutual
theorem collectTextN_content (parent : LC) (n : HNode) :
    ∀ e ∈ collectTextN parent n, e.content ≠ [] := by
  cases n with
  | elem i nm ats cs =>
    intro e he
    rw [collectTextN] at he
    exact collectTextF_content nm cs e he
  | text i s =>
    intro e he
    rw [collectTextN] at he
    by_cases h1 : parent ∈ EXCLUDED_TEXT_PARENTS
    · simp [h1] at he
    · by_cases h2 : pyStrip s = []
      · simp [h1, h2] at he
      · simp [h1, h2] at he
        subst he
        intro hc
        simp [Entry.content] at hc
        exact h2 ((split_text_core_empty s).1.mp hc)
  | comment i s =>
    intro e he
    rw [collectTextN] at he
    simp at he
  | doctype i s =>
    intro e he
    rw [collectTextN] at he
    simp at he
termination_by sizeOf n

theorem collectTextF_content (parent : LC) (f : HForest) :
    ∀ e ∈ collectTextF parent f, e.content ≠ [] := by
  cases f with
  | nil =>
    intro e he
    rw [collectTextF] at he
    simp at he
  | cons n f2 =>
    intro e he
    rw [collectTextF] at he
    rcases List.mem_append.mp he with h1 | h1
    · exact collectTextN_content parent n e h1
    · exact collectTextF_content parent f2 e h1
termination_by sizeOf f
end

mutual
theorem collectAttrN_content (a : LC) (n : HNode) :
    ∀ es, collectAttrN a n = .ok es → ∀ e ∈ es, e.content ≠ [] := by
  cases n with
  | elem i nm ats cs =>
    intro es h e he
    cases hg : getAttr ats a with
    | none =>
      simp only [collectAttrN, hg] at h
      exact collectAttrF_content a cs es h e he
    | some v =>
      cases hv : attrEntryOf i a v with
      | error e2 => simp [collectAttrN, hg, hv] at h
      | ok es1 =>
        cases hf : collectAttrF a cs with
        | error e2 => simp [collectAttrN, hg, hv, hf] at h
        | ok es2 =>
          simp [collectAttrN, hg, hv, hf] at h
          subst h
          rcases List.mem_append.mp he with h1 | h1
          · exact attrEntryOf_content i a v es1 hv e h1
          · exact collectAttrF_content a cs es2 hf e h1
  | text i s =>
    intro es h e he
    simp [collectAttrN] at h
    subst h
    simp at he
  | comment i s =>
    intro es h e he
    simp [collectAttrN] at h
    subst h
    simp at he
  | doctype i s =>
    intro es h e he
    simp [collectAttrN] at h
    subst h
    simp at he
termination_by sizeOf n

theorem collectAttrF_content (a : LC) (f : HForest) :
    ∀ es, collectAttrF a f = .ok es → ∀ e ∈ es, e.content ≠ [] := by
  cases f with
  | nil =>
    intro es h e he
    simp [collectAttrF] at h
    subst h
    simp at he
  | cons n f2 =>
    intro es h e he
    cases hn : collectAttrN a n with
    | error e2 => simp [collectAttrF, hn] at h
    | ok es1 =>
      cases hf : collectAttrF a f2 with
      | error e2 => simp [collectAttrF, hn, hf] at h
      | ok es2 =>
        simp [collectAttrF, hn, hf] at h
        subst h
        rcases List.mem_append.mp he with h1 | h1
        · exact collectAttrN_content a n es1 hn e h1
        · exact collectAttrF_content a f2 es2 hf e h1
termination_by sizeOf f
end

theorem collectAttrs_content (doc : HForest) :
    ∀ (attrs : List LC) (es : List Entry), collectAttrs doc attrs = .ok es →
      ∀ e ∈ es, e.content ≠ [] := by
  intro attrs
  induction attrs with
  | nil =>
    intro es h e he
    simp [collectAttrs] at h
    subst h
    simp at he
  | cons a rest ih =>
    intro es h e he
    cases h1 : collectAttrF a doc with
    | error e2 => simp [collectAttrs, h1] at h
    | ok es1 =>
      cases h2 : collectAttrs doc rest with
      | error e2 => simp [collectAttrs, h1, h2] at h
      | ok es2 =>
        simp [collectAttrs, h1, h2] at h
        subst h
        rcases List.mem_append.mp he with hm | hm
        · exact collectAttrF_content a doc es1 h1 e hm
        · exact ih es2 h2 e hm

/-- C7: every translatable unit produced by extraction has non-empty content:
whitespace-only and empty candidates are discarded, for text nodes and for
attribute values alike. -/
theorem collect_entries_content (doc : HForest) (es : List Entry)
    (h : collect_entries doc = .ok es) : ∀ e ∈ es, e.content ≠ [] := by
  unfold collect_entries at h
  cases ha : collectAttrs doc ATTRS_TO_TRANSLATE with
  | error e2 => rw [ha] at h; exact absurd h (by simp)
  | ok attrEs =>
    rw [ha] at h
    simp at h
    subst h
    intro e he
    rcases List.mem_append.mp he with h1 | h1
    · exact collectTextF_content docRootName doc e h1
    · exact collectAttrs_content doc ATTRS_TO_TRANSLATE attrEs ha e h1

/-- A two-page sample document used to instantiate the tree-level theorems:
`<html><head><link href="css/style.css"></head><body class="foo"><p> Hello
</p><script src="js/main.js">var x = 1;</script></body></html>`. -/
def exampleDoc : HForest :=
  .cons (.elem (some 1) (lc "html") []
    (.cons (.elem (some 2) (lc "head") []
      (.cons (.elem (some 3) (lc "link") [(lc "href", .str (lc "css/style.css"))] .nil) .nil))
    (.cons (.elem (some 4) (lc "body") [(lc "class", .lst [lc "foo"])]
      (.cons (.elem (some 5) (lc "p") [] (.cons (.text (some 6) (lc " Hello ")) .nil))
      (.cons (.elem (some 7) (lc "script") [(lc "src", .str (lc "js/main.js"))]
        (.cons (.text (some 8) (lc "var x = 1;")) .nil)) .nil)))
    .nil))) .nil

theorem collect_entries_content_witness :
    Entry.content (Entry.text (some 6) (lc " ") (lc "Hello") (lc " ")) ≠ [] :=
  collect_entries_content exampleDoc
    [Entry.text (some 6) (lc " ") (lc "Hello") (lc " ")] (by rfl)
    (Entry.text (some 6) (lc " ") (lc "Hello") (lc " "))
    (List.mem_singleton.mpr rfl)

/-! ### C6: extraction excludes script/style text, comments and doctypes

`allIds*` enumerates the node handles of a document (one per node — the
`Nodup` hypothesis is bs4 object identity); `badIds*` (from the claim) are
the handles of text nodes whose nearest element ancestor is a script or
style element, and of comments and doctypes; `goodIds*` are the handles of
text nodes with a non-excluded parent. -/

mutual
def allIdsN : HNode → List Nat
  | .elem i _ _ cs => i.toList ++ allIdsF cs
  | .text i _ => i.toList
  | .comment i _ => i.toList
  | .doctype i _ => i.toList
def allIdsF : HForest → List Nat
  | .nil => []
  | .cons n f => allIdsN n ++ allIdsF f
end

mutual
def badIdsN (parent : LC) : HNode → List Nat
  | .elem _ nm _ cs => badIdsF nm cs
  | .text i _ => if parent ∈ EXCLUDED_TEXT_PARENTS then i.toList else []
  | .comment i _ => i.toList
  | .doctype i _ => i.toList
def badIdsF (parent : LC) : HForest → List Nat
  | .nil => []
  | .cons n f => badIdsN parent n ++ badIdsF parent f
end

mutual
def goodIdsN (parent : LC) : HNode → List Nat
  | .elem _ nm _ cs => goodIdsF nm cs
  | .text i _ => if parent ∈ EXCLUDED_TEXT_PARENTS then [] else i.toList
  | .comment _ _ => []
  | .doctype _ _ => []
def goodIdsF (parent : LC) : HForest → List Nat
  | .nil => []
  | .cons n f => goodIdsN parent n ++ goodIdsF parent f
end

/-- The text-node handle referenced by a unit, when there is one. -/
def Entry.textRef : Entry → Option Nat
  | .text (some i) _ _ _ => some i
  | .text none _ _ _ => none
  | .attr _ _ _ _ _ => none

mutual
theorem collectTextN_ref_good (parent : LC) (n : HNode) :
    ∀ e ∈ collectTextN parent n, ∀ i, e.textRef = some i → i ∈ goodIdsN parent n := by
  cases n with
  | elem j nm ats cs =>
    intro e he i hi
    rw [collectTextN] at he
    rw [goodIdsN]
    exact collectTextF_ref_good nm cs e he i hi
  | text j s =>
    intro e he i hi
    rw [collectTextN] at he
    rw [goodIdsN]
    by_cases h1 : parent ∈ EXCLUDED_TEXT_PARENTS
    · simp [h1] at he
    · by_cases h2 : pyStrip s = []
      · simp [h1, h2] at he
      · simp [h1, h2] at he
        subst he
        simp only [if_neg h1]
        cases j with
        | none => simp [Entry.textRef] at hi
        | some j0 =>
          simp [Entry.textRef] at hi
          subst hi
          simp [Option.toList]
  | comment j s =>
    intro e he i hi
    rw [collectTextN] at he
    simp at he
  | doctype j s =>
    intro e he i hi
    rw [collectTextN] at he
    simp at he
termination_by sizeOf n

theorem collectTextF_ref_good (parent : LC) (f : HForest) :
    ∀ e ∈ collectTextF parent f, ∀ i, e.textRef = some i → i ∈ goodIdsF parent f := by
  cases f with
  | nil =>
    intro e he
    rw [collectTextF] at he
    simp at he
  | cons n f2 =>
    intro e he i hi
    rw [collectTextF] at he
    rw [goodIdsF]
    rcases List.mem_append.mp he with h1 | h1
    · exact List.mem_append_left _ (collectTextN_ref_good parent n e h1 i hi)
    · exact List.mem_append_right _ (collectTextF_ref_good parent f2 e h1 i hi)
termination_by sizeOf f
end

mutual
theorem collectAttrN_ref_none (a : LC) (n : HNode) :
    ∀ es, collectAttrN a n = .ok es → ∀ e ∈ es, e.textRef = none := by
  cases n with
  | elem i nm ats cs =>
    intro es h e he
    cases hg : getAttr ats a with
    | none =>
      simp only [collectAttrN, hg] at h
      exact collectAttrF_ref_none a cs es h e he
    | some v =>
      cases hv : attrEntryOf i a v with
      | error e2 => simp [collectAttrN, hg, hv] at h
      | ok es1 =>
        cases hf : collectAttrF a cs with
        | error e2 => simp [collectAttrN, hg, hv, hf] at h
        | ok es2 =>
          simp [collectAttrN, hg, hv, hf] at h
          subst h
          rcases List.mem_append.mp he with h1 | h1
          · -- attrEntryOf only emits .attr entries
            cases v with
            | str s =>
              by_cases hA : s.isEmpty
              · simp [attrEntryOf, hA] at hv; subst hv; simp at h1
              · by_cases hB : pyStrip s = []
                · simp [attrEntryOf, hA, hB] at hv; subst hv; simp at h1
                · simp [attrEntryOf, hA, hB] at hv
                  subst hv
                  simp at h1
                  subst h1
                  rfl
            | lst ls =>
              by_cases hA : ls.isEmpty
              · simp [attrEntryOf, hA] at hv; subst hv; simp at h1
              · simp [attrEntryOf, hA] at hv
          · exact collectAttrF_ref_none a cs es2 hf e h1
  | text i s =>
    intro es h e he
    simp [collectAttrN] at h
    subst h
    simp at he
  | comment i s =>
    intro es h e he
    simp [collectAttrN] at h
    subst h
    simp at he
  | doctype i s =>
    intro es h e he
    simp [collectAttrN] at h
    subst h
    simp at he
termination_by sizeOf n

theorem collectAttrF_ref_none (a : LC) (f : HForest) :
    ∀ es, collectAttrF a f = .ok es → ∀ e ∈ es, e.textRef = none := by
  cases f with
  | nil =>
    intro es h e he
    simp [collectAttrF] at h
    subst h
    simp at he
  | cons n f2 =>
    intro es h e he
    cases hn : collectAttrN a n with
    | error e2 => simp [collectAttrF, hn] at h
    | ok es1 =>
      cases hf : collectAttrF a f2 with
      | error e2 => simp [collectAttrF, hn, hf] at h
      | ok es2 =>
        simp [collectAttrF, hn, hf] at h
        subst h
        rcases List.mem_append.mp he with h1 | h1
        · exact collectAttrN_ref_none a n es1 hn e h1
        · exact collectAttrF_ref_none a f2 es2 hf e h1
termination_by sizeOf f
end

theorem collectAttrs_ref_none (doc : HForest) :
    ∀ (attrs : List LC) (es : List Entry), collectAttrs doc attrs = .ok es →
      ∀ e ∈ es, e.textRef = none := by
  intro attrs
  induction attrs with
  | nil =>
    intro es h e he
    simp [collectAttrs] at h
    subst h
    simp at he
  | cons a rest ih =>
    intro es h e he
    cases h1 : collectAttrF a doc with
    | error e2 => simp [collectAttrs, h1] at h
    | ok es1 =>
      cases h2 : collectAttrs doc rest with
      | error e2 => simp [collectAttrs, h1, h2] at h
      | ok es2 =>
        simp [collectAttrs, h1, h2] at h
        subst h
        rcases List.mem_append.mp he with hm | hm
        · exact collectAttrF_ref_none a doc es1 h1 e hm
        · exact ih es2 h2 e hm

mutual
theorem goodIdsN_sub_all (parent : LC) (n : HNode) :
    ∀ i ∈ goodIdsN parent n, i ∈ allIdsN n := by
  cases n with
  | elem j nm ats cs =>
    intro i hi
    rw [goodIdsN] at hi
    rw [allIdsN]
    exact List.mem_append_right _ (goodIdsF_sub_all nm cs i hi)
  | text j s =>
    intro i hi
    rw [goodIdsN] at hi
    rw [allIdsN]
    by_cases h1 : parent ∈ EXCLUDED_TEXT_PARENTS
    · simp [h1] at hi
    · simpa [h1] using hi
  | comment j s =>
    intro i hi
    rw [goodIdsN] at hi
    simp at hi
  | doctype j s =>
    intro i hi
    rw [goodIdsN] at hi
    simp at hi
termination_by sizeOf n

theorem goodIdsF_sub_all (parent : LC) (f : HForest) :
    ∀ i ∈ goodIdsF parent f, i ∈ allIdsF f := by
  cases f with
  | nil =>
    intro i hi
    rw [goodIdsF] at hi
    simp at hi
  | cons n f2 =>
    intro i hi
    rw [goodIdsF] at hi
    rw [allIdsF]
    rcases List.mem_append.mp hi with h1 | h1
    · exact List.mem_append_left _ (goodIdsN_sub_all parent n i h1)
    · exact List.mem_append_right _ (goodIdsF_sub_all parent f2 i h1)
termination_by sizeOf f
end

mutual
theorem badIdsN_sub_all (parent : LC) (n : HNode) :
    ∀ i ∈ badIdsN parent n, i ∈ allIdsN n := by
  cases n with
  | elem j nm ats cs =>
    intro i hi
    rw [badIdsN] at hi
    rw [allIdsN]
    exact List.mem_append_right _ (badIdsF_sub_all nm cs i hi)
  | text j s =>
    intro i hi
    rw [badIdsN] at hi
    rw [allIdsN]
    by_cases h1 : parent ∈ EXCLUDED_TEXT_PARENTS
    · simpa [h1] using hi
    · simp [h1] at hi
  | comment j s =>
    intro i hi
    rw [badIdsN] at hi
    rw [allIdsN]
    exact hi
  | doctype j s =>
    intro i hi
    rw [badIdsN] at hi
    rw [allIdsN]
    exact hi
termination_by sizeOf n

theorem badIdsF_sub_all (parent : LC) (f : HForest) :
    ∀ i ∈ badIdsF parent f, i ∈ allIdsF f := by
  cases f with
  | nil =>
    intro i hi
    rw [badIdsF] at hi
    simp at hi
  | cons n f2 =>
    intro i hi
    rw [badIdsF] at hi
    rw [allIdsF]
    rcases List.mem_append.mp hi with h1 | h1
    · exact List.mem_append_left _ (badIdsN_sub_all parent n i h1)
    · exact List.mem_append_right _ (badIdsF_sub_all parent f2 i h1)
termination_by sizeOf f
end

mutual
theorem good_bad_disjointN (parent : LC) (n : HNode) (hnd : (allIdsN n).Nodup) :
    ∀ i ∈ goodIdsN parent n, i ∉ badIdsN parent n := by
  cases n with
  | elem j nm ats cs =>
    intro i hi
    rw [goodIdsN] at hi
    rw [badIdsN]
    have hnd2 : (allIdsF cs).Nodup := by
      rw [allIdsN] at hnd
      exact (List.nodup_append.mp hnd).2.1
    exact good_bad_disjointF nm cs hnd2 i hi
  | text j s =>
    intro i hi
    rw [goodIdsN] at hi
    rw [badIdsN]
    by_cases h1 : parent ∈ EXCLUDED_TEXT_PARENTS
    · simp [h1] at hi
    · simp [h1]
  | comment j s =>
    intro i hi
    rw [goodIdsN] at hi
    simp at hi
  | doctype j s =>
    intro i hi
    rw [goodIdsN] at hi
    simp at hi
termination_by sizeOf n

theorem good_bad_disjointF (parent : LC) (f : HForest) (hnd : (allIdsF f).Nodup) :
    ∀ i ∈ goodIdsF parent f, i ∉ badIdsF parent f := by
  cases f with
  | nil =>
    intro i hi
    rw [goodIdsF] at hi
    simp at hi
  | cons n f2 =>
    intro i hi hbad
    rw [goodIdsF] at hi
    rw [badIdsF] at hbad
    rw [allIdsF] at hnd
    rcases List.nodup_append.mp hnd with ⟨hndN, hndF, hdisj⟩
    rcases List.mem_append.mp hi with h1 | h1
    · rcases List.mem_append.mp hbad with h2 | h2
      · exact good_bad_disjointN parent n hndN i h1 h2
      · exact hdisj (goodIdsN_sub_all parent n i h1) (badIdsF_sub_all parent f2 i h2)
    · rcases List.mem_append.mp hbad with h2 | h2
      · exact hdisj (badIdsN_sub_all parent n i h2) (goodIdsF_sub_all parent f2 i h1)
      · exact good_bad_disjointF parent f2 hndF i h1 h2
termination_by sizeOf f
end

/-- C6: extraction never references a text node whose nearest element
ancestor is a script or style element, nor a comment or doctype node (the
handles of all such nodes are `badIdsF`). -/
theorem collect_entries_excludes (doc : HForest) (hnd : (allIdsF doc).Nodup)
    (es : List Entry) (h : collect_entries doc = .ok es) :
    ∀ e ∈ es, ∀ i, e.textRef = some i → i ∉ badIdsF docRootName doc := by
  unfold collect_entries at h
  cases ha : collectAttrs doc ATTRS_TO_TRANSLATE with
  | error e2 => rw [ha] at h; exact absurd h (by simp)
  | ok attrEs =>
    rw [ha] at h
    simp at h
    subst h
    intro e he i hi
    rcases List.mem_append.mp he with h1 | h1
    · exact good_bad_disjointF docRootName doc hnd i
        (collectTextF_ref_good docRootName doc e h1 i hi)
    · have := collectAttrs_ref_none doc ATTRS_TO_TRANSLATE attrEs ha e h1
      rw [this] at hi
      exact absurd hi (by simp)

theorem collect_entries_excludes_witness :
    (6 : Nat) ∉ badIdsF docRootName exampleDoc :=
  collect_entries_excludes exampleDoc (by decide)
    [Entry.text (some 6) (lc " ") (lc "Hello") (lc " ")] (by rfl)
    (Entry.text (some 6) (lc " ") (lc "Hello") (lc " "))
    (List.mem_singleton.mpr rfl) 6 rfl

/-! ### C10: each adjuster operation is a no-op without its target element -/

mutual
theorem find_none_mapFirstN (p : HNode → Bool) (g : HNode → HNode) (n : HNode)
    (h : findFirstN p n = none) : mapFirstN p g n = none := by
  cases n with
  | elem i nm ats cs =>
    rw [findFirstN] at h
    rw [mapFirstN]
    by_cases hp : p (.elem i nm ats cs)
    · simp [hp] at h
    · rw [if_neg hp] at h ⊢
      rw [find_none_mapFirstF p g cs h]
  | text i s =>
    rw [findFirstN] at h
    rw [mapFirstN]
    by_cases hp : p (.text i s)
    · simp [hp] at h
    · simp [hp]
  | comment i s =>
    rw [findFirstN] at h
    rw [mapFirstN]
    by_cases hp : p (.comment i s)
    · simp [hp] at h
    · simp [hp]
  | doctype i s =>
    rw [findFirstN] at h
    rw [mapFirstN]
    by_cases hp : p (.doctype i s)
    · simp [hp] at h
    · simp [hp]
termination_by sizeOf n

theorem find_none_mapFirstF (p : HNode → Bool) (g : HNode → HNode) (f : HForest)
    (h : findFirstF p f = none) : mapFirstF p g f = none := by
  cases f with
  | nil => rw [mapFirstF]
  | cons n f2 =>
    rw [findFirstF] at h
    rw [mapFirstF]
    cases hn : findFirstN p n with
    | some m => rw [hn] at h; simp at h
    | none =>
      rw [hn] at h
      rw [find_none_mapFirstN p g n hn]
      rw [find_none_mapFirstF p g f2 h]
termination_by sizeOf f
end

mutual
theorem find_none_mapFirstEN (p : HNode → Bool) (g : HNode → Except Err HNode)
    (n : HNode) (h : findFirstN p n = none) : mapFirstEN p g n = .ok none := by
  cases n with
  | elem i nm ats cs =>
    rw [findFirstN] at h
    rw [mapFirstEN]
    by_cases hp : p (.elem i nm ats cs)
    · simp [hp] at h
    · rw [if_neg hp] at h ⊢
      rw [find_none_mapFirstEF p g cs h]
  | text i s =>
    rw [findFirstN] at h
    rw [mapFirstEN]
    by_cases hp : p (.text i s)
    · simp [hp] at h
    · simp [hp]
  | comment i s =>
    rw [findFirstN] at h
    rw [mapFirstEN]
    by_cases hp : p (.comment i s)
    · simp [hp] at h
    · simp [hp]
  | doctype i s =>
    rw [findFirstN] at h
    rw [mapFirstEN]
    by_cases hp : p (.doctype i s)
    · simp [hp] at h
    · simp [hp]
termination_by sizeOf n

theorem find_none_mapFirstEF (p : HNode → Bool) (g : HNode → Except Err HNode)
    (f : HForest) (h : findFirstF p f = none) : mapFirstEF p g f = .ok none := by
  cases f with
  | nil => rw [mapFirstEF]
  | cons n f2 =>
    rw [findFirstF] at h
    rw [mapFirstEF]
    cases hn : findFirstN p n with
    | some m => rw [hn] at h; simp at h
    | none =>
      rw [hn] at h
      rw [find_none_mapFirstEN p g n hn]
      rw [find_none_mapFirstEF p g f2 h]
termination_by sizeOf f
end

/-- C10: on a document lacking the relevant target element each RTL adjuster
operation is a total no-op and raises no error: no head — the stylesheet
step returns the document unchanged; no body — the script step returns it
unchanged and the body half of the attribute step succeeds without change;
no html — the html half of the attribute step is skipped. -/
theorem rtl_adjust_noop (doc : HForest) :
    (findFirstF (isElemNamed (lc "head")) doc = none → ensure_rtl_stylesheet doc = doc) ∧
    (findFirstF (isElemNamed (lc "body")) doc = none → ensure_rtl_script doc = doc) ∧
    (findFirstF (isElemNamed (lc "html")) doc = none → htmlPhase doc = doc) ∧
    (findFirstF (isElemNamed (lc "body")) doc = none → bodyPhase doc = .ok doc) ∧
    (findFirstF (isElemNamed (lc "html")) doc = none →
      findFirstF (isElemNamed (lc "body")) doc = none →
      ensure_rtl_attributes doc = .ok doc) := by
  refine ⟨?_, ?_, ?_, ?_, ?_⟩
  · intro h
    simp [ensure_rtl_stylesheet, find_none_mapFirstF _ _ _ h]
  · intro h
    simp [ensure_rtl_script, find_none_mapFirstF _ _ _ h]
  · intro h
    simp [htmlPhase, find_none_mapFirstF _ _ _ h]
  · intro h
    simp [bodyPhase, find_none_mapFirstEF _ _ _ h]
  · intro h1 h2
    have e1 : htmlPhase doc = doc := by
      simp [htmlPhase, find_none_mapFirstF _ _ _ h1]
    have e2 : bodyPhase doc = .ok doc := by
      simp [bodyPhase, find_none_mapFirstEF _ _ _ h2]
    unfold ensure_rtl_attributes
    rw [e1, e2]

/-- A document with no html, head or body element. -/
def bareDoc : HForest := .cons (.elem (some 1) (lc "p") [] .nil) .nil

theorem rtl_adjust_noop_witness :
    ensure_rtl_stylesheet bareDoc = bareDoc ∧ ensure_rtl_script bareDoc = bareDoc ∧
      ensure_rtl_attributes bareDoc = .ok bareDoc :=
  ⟨(rtl_adjust_noop bareDoc).1 rfl, (rtl_adjust_noop bareDoc).2.1 rfl,
   (rtl_adjust_noop bareDoc).2.2.2.2 rfl rfl⟩

/-! ### C4: reinjection writes `lead ++ T ++ trail` in place; re-running it
for a text unit raises (the node is detached), for an attribute unit it is
safe -/

/-! The replacement relation: `ReplF i new f f2` holds when `f2` is `f` with
exactly one text node of handle `i` replaced by a fresh text node (handle
`none`) carrying `new`, all other nodes and all sibling positions unchanged
in order and count. -/
mutual
inductive ReplN (i : Nat) (new : LC) : HNode → HNode → Prop where
  | here (s : LC) : ReplN i new (.text (some i) s) (.text none new)
  | elem (eid : Option Nat) (nm : LC) (ats : List (LC × AttrVal)) (cs cs2 : HForest) :
      ReplF i new cs cs2 → ReplN i new (.elem eid nm ats cs) (.elem eid nm ats cs2)
inductive ReplF (i : Nat) (new : LC) : HForest → HForest → Prop where
  | head (n n2 : HNode) (f : HForest) : ReplN i new n n2 → ReplF i new (.cons n f) (.cons n2 f)
  | tail (n : HNode) (f f2 : HForest) : ReplF i new f f2 → ReplF i new (.cons n f) (.cons n f2)
end

mutual
theorem replaceTextN_rel (i : Nat) (new : LC) (n n2 : HNode)
    (h : replaceTextN i new n = some n2) : ReplN i new n n2 := by
  cases n with
  | elem j nm ats cs =>
    cases hr : replaceTextF i new cs with
    | none => rw [replaceTextN, hr] at h; exact absurd h (by simp)
    | some cs2 =>
      rw [replaceTextN, hr] at h
      simp at h
      subst h
      exact ReplN.elem j nm ats cs cs2 (replaceTextF_rel i new cs cs2 hr)
  | text j s =>
    rw [replaceTextN] at h
    by_cases hj : j = some i
    · simp only [hj, if_pos] at h
      simp at h
      subst h
      subst hj
      exact ReplN.here s
    · simp [hj] at h
  | comment j s => rw [replaceTextN] at h; exact absurd h (by simp)
  | doctype j s => rw [replaceTextN] at h; exact absurd h (by simp)
termination_by sizeOf n

theorem replaceTextF_rel (i : Nat) (new : LC) (f f2 : HForest)
    (h : replaceTextF i new f = some f2) : ReplF i new f f2 := by
  cases f with
  | nil => rw [replaceTextF] at h; exact absurd h (by simp)
  | cons n fr =>
    cases hn : replaceTextN i new n with
    | some n2 =>
      rw [replaceTextF, hn] at h
      simp at h
      subst h
      exact ReplF.head n n2 fr (replaceTextN_rel i new n n2 hn)
    | none =>
      cases hf : replaceTextF i new fr with
      | none => rw [replaceTextF, hn, hf] at h; exact absurd h (by simp)
      | some fr2 =>
        rw [replaceTextF, hn, hf] at h
        simp at h
        subst h
        exact ReplF.tail n fr fr2 (replaceTextF_rel i new fr fr2 hf)
termination_by sizeOf f
end

/-! Number of text nodes carrying handle `i` (bs4 identity: at most one). -/
mutual
def countTextN (i : Nat) : HNode → Nat
  | .elem _ _ _ cs => countTextF i cs
  | .text j _ => if j = some i then 1 else 0
  | .comment _ _ => 0
  | .doctype _ _ => 0
def countTextF (i : Nat) : HForest → Nat
  | .nil => 0
  | .cons n f => countTextN i n + countTextF i f
end

mutual
theorem replaceTextN_none_count (i : Nat) (new : LC) (n : HNode)
    (h : replaceTextN i new n = none) : countTextN i n = 0 := by
  cases n with
  | elem j nm ats cs =>
    cases hr : replaceTextF i new cs with
    | some cs2 => rw [replaceTextN, hr] at h; exact absurd h (by simp)
    | none =>
      rw [countTextN]
      exact replaceTextF_none_count i new cs hr
  | text j s =>
    rw [replaceTextN] at h
    by_cases hj : j = some i
    · simp [hj] at h
    · simp [countTextN, hj]
  | comment j s => rw [countTextN]
  | doctype j s => rw [countTextN]
termination_by sizeOf n

theorem replaceTextF_none_count (i : Nat) (new : LC) (f : HForest)
    (h : replaceTextF i new f = none) : countTextF i f = 0 := by
  cases f with
  | nil => rw [countTextF]
  | cons n fr =>
    cases hn : replaceTextN i new n with
    | some n2 => rw [replaceTextF, hn] at h; exact absurd h (by simp)
    | none =>
      cases hf : replaceTextF i new fr with
      | some fr2 => rw [replaceTextF, hn, hf] at h; exact absurd h (by simp)
      | none =>
        rw [countTextF]
        rw [replaceTextN_none_count i new n hn, replaceTextF_none_count i new fr hf]
termination_by sizeOf f
end

mutual
theorem countTextN_zero_replace_none (i : Nat) (new : LC) (n : HNode)
    (h : countTextN i n = 0) : replaceTextN i new n = none := by
  cases n with
  | elem j nm ats cs =>
    rw [countTextN] at h
    rw [replaceTextN]
    rw [countTextF_zero_replace_none i new cs h]
  | text j s =>
    rw [countTextN] at h
    rw [replaceTextN]
    by_cases hj : j = some i
    · simp [hj] at h
    · simp [hj]
  | comment j s => rw [replaceTextN]
  | doctype j s => rw [replaceTextN]
termination_by sizeOf n

theorem countTextF_zero_replace_none (i : Nat) (new : LC) (f : HForest)
    (h : countTextF i f = 0) : replaceTextF i new f = none := by
  cases f with
  | nil => rw [replaceTextF]
  | cons n fr =>
    rw [countTextF] at h
    rw [replaceTextF]
    rw [countTextN_zero_replace_none i new n (by omega)]
    rw [countTextF_zero_replace_none i new fr (by omega)]
termination_by sizeOf f
end

mutual
theorem replaceTextN_count (i : Nat) (new : LC) (n n2 : HNode)
    (h : replaceTextN i new n = some n2) : countTextN i n = countTextN i n2 + 1 := by
  cases n with
  | elem j nm ats cs =>
    cases hr : replaceTextF i new cs with
    | none => rw [replaceTextN, hr] at h; exact absurd h (by simp)
    | some cs2 =>
      rw [replaceTextN, hr] at h
      simp at h
      subst h
      rw [countTextN, countTextN]
      exact replaceTextF_count i new cs cs2 hr
  | text j s =>
    rw [replaceTextN] at h
    by_cases hj : j = some i
    · simp only [hj, if_pos] at h
      simp at h
      subst h
      simp [countTextN, hj]
    · simp [hj] at h
  | comment j s => rw [replaceTextN] at h; exact absurd h (by simp)
  | doctype j s => rw [replaceTextN] at h; exact absurd h (by simp)
termination_by sizeOf n

theorem replaceTextF_count (i : Nat) (new : LC) (f f2 : HForest)
    (h : replaceTextF i new f = some f2) : countTextF i f = countTextF i f2 + 1 := by
  cases f with
  | nil => rw [replaceTextF] at h; exact absurd h (by simp)
  | cons n fr =>
    cases hn : replaceTextN i new n with
    | some n2 =>
      rw [replaceTextF, hn] at h
      simp at h
      subst h
      rw [countTextF, countTextF]
      have := replaceTextN_count i new n n2 hn
      omega
    | none =>
      cases hf : replaceTextF i new fr with
      | none => rw [replaceTextF, hn, hf] at h; exact absurd h (by simp)
      | some fr2 =>
        rw [replaceTextF, hn, hf] at h
        simp at h
        subst h
        rw [countTextF, countTextF]
        have := replaceTextF_count i new fr fr2 hf
        omega
termination_by sizeOf f
end

theorem setAttr_idem (ats : List (LC × AttrVal)) (a : LC) (v : AttrVal) :
    setAttr (setAttr ats a v) a v = setAttr ats a v := by
  induction ats with
  | nil => simp [setAttr]
  | cons kv rest ih =>
    obtain ⟨k, w⟩ := kv
    by_cases hk : k = a
    · simp [setAttr, hk]
    · simp [setAttr, hk, ih]

theorem mapFirstN_of_p (p : HNode → Bool) (g : HNode → HNode) (m : HNode)
    (hm : p m = true) : mapFirstN p g m = some (g m) := by
  cases m with
  | elem i nm ats cs => rw [mapFirstN]; simp [hm]
  | text i s => rw [mapFirstN]; simp [hm]
  | comment i s => rw [mapFirstN]; simp [hm]
  | doctype i s => rw [mapFirstN]; simp [hm]

mutual
theorem mapFirstN_idem (p : HNode → Bool) (g : HNode → HNode)
    (hp : ∀ eid nm ats cs cs2, p (.elem eid nm ats cs) = p (.elem eid nm ats cs2))
    (hgp : ∀ m, p m = true → p (g m) = true)
    (hgg : ∀ m, p m = true → g (g m) = g m)
    (n n2 : HNode) (h : mapFirstN p g n = some n2) : mapFirstN p g n2 = some n2 := by
  cases n with
  | elem i nm ats cs =>
    by_cases hpe : p (.elem i nm ats cs)
    · rw [mapFirstN_of_p p g _ hpe] at h
      simp at h
      subst h
      rw [mapFirstN_of_p p g _ (hgp _ hpe)]
      rw [hgg _ hpe]
    · rw [mapFirstN, if_neg hpe] at h
      cases hm : mapFirstF p g cs with
      | none => rw [hm] at h; exact absurd h (by simp)
      | some cs2 =>
        rw [hm] at h
        simp at h
        subst h
        have hpe2 : ¬ p (.elem i nm ats cs2) = true := by
          rw [← hp i nm ats cs cs2]
          exact hpe
        rw [mapFirstN, if_neg hpe2]
        rw [mapFirstF_idem p g hp hgp hgg cs cs2 hm]
  | text i s =>
    by_cases hpe : p (.text i s)
    · rw [mapFirstN_of_p p g _ hpe] at h
      simp at h
      subst h
      rw [mapFirstN_of_p p g _ (hgp _ hpe)]
      rw [hgg _ hpe]
    · rw [mapFirstN, if_neg hpe] at h
      exact absurd h (by simp)
  | comment i s =>
    by_cases hpe : p (.comment i s)
    · rw [mapFirstN_of_p p g _ hpe] at h
      simp at h
      subst h
      rw [mapFirstN_of_p p g _ (hgp _ hpe)]
      rw [hgg _ hpe]
    · rw [mapFirstN, if_neg hpe] at h
      exact absurd h (by simp)
  | doctype i s =>
    by_cases hpe : p (.doctype i s)
    · rw [mapFirstN_of_p p g _ hpe] at h
      simp at h
      subst h
      rw [mapFirstN_of_p p g _ (hgp _ hpe)]
      rw [hgg _ hpe]
    · rw [mapFirstN, if_neg hpe] at h
      exact absurd h (by simp)
termination_by sizeOf n

theorem mapFirstF_idem (p : HNode → Bool) (g : HNode → HNode)
    (hp : ∀ eid nm ats cs cs2, p (.elem eid nm ats cs) = p (.elem eid nm ats cs2))
    (hgp : ∀ m, p m = true → p (g m) = true)
    (hgg : ∀ m, p m = true → g (g m) = g m)
    (f f2 : HForest) (h : mapFirstF p g f = some f2) : mapFirstF p g f2 = some f2 := by
  cases f with
  | nil => rw [mapFirstF] at h; exact absurd h (by simp)
  | cons n fr =>
    cases hn : mapFirstN p g n with
    | some n2 =>
      rw [mapFirstF, hn] at h
      simp at h
      subst h
      rw [mapFirstF]
      rw [mapFirstN_idem p g hp hgp hgg n n2 hn]
    | none =>
      cases hf : mapFirstF p g fr with
      | none => rw [mapFirstF, hn, hf] at h; exact absurd h (by simp)
      | some fr2 =>
        rw [mapFirstF, hn, hf] at h
        simp at h
        subst h
        rw [mapFirstF, hn]
        rw [mapFirstF_idem p g hp hgp hgg fr fr2 hf]
termination_by sizeOf f
end

/-- C4 amended: one application of reinjection for a text unit whose handle
occurs (once) in the document succeeds and replaces exactly that node's text
with `leading ++ T ++ trailing`, preserving every sibling in order and count
(the `ReplF` relation); a second application for the same text unit raises
`ValueError` (the original node is detached); for an attribute unit a second
application with the same content is safe and leaves the document unchanged. -/
theorem apply_translation_spec (i : Nat) (leading c trailing T : LC) (doc : HForest)
    (hocc : countTextF i doc = 1) :
    (∃ d2, apply_translation (.text (some i) leading c trailing) T doc = .ok d2 ∧
       ReplF i (leading ++ T ++ trailing) doc d2 ∧
       apply_translation (.text (some i) leading c trailing) T d2 = .error .valueError) ∧
    (∀ (j : Nat) (a : LC) (d2 : HForest),
       apply_translation (.attr (some j) a leading c trailing) T doc = .ok d2 →
       apply_translation (.attr (some j) a leading c trailing) T d2 = .ok d2) := by
  constructor
  · cases hr : replaceTextF i (leading ++ T ++ trailing) doc with
    | none =>
      have h0 := replaceTextF_none_count i (leading ++ T ++ trailing) doc hr
      rw [h0] at hocc
      exact absurd hocc (by simp)
    | some d2 =>
      refine ⟨d2, ?_, ?_, ?_⟩
      · show (match replaceTextF i (leading ++ T ++ trailing) doc with
            | some d3 => Except.ok d3
            | none => Except.error Err.valueError) = Except.ok d2
        rw [hr]
      · exact replaceTextF_rel _ _ _ _ hr
      · have hc := replaceTextF_count i (leading ++ T ++ trailing) doc d2 hr
        have hc2 : countTextF i d2 = 0 := by omega
        have hr2 := countTextF_zero_replace_none i (leading ++ T ++ trailing) d2 hc2
        show (match replaceTextF i (leading ++ T ++ trailing) d2 with
            | some d3 => Except.ok d3
            | none => Except.error Err.valueError) = Except.error Err.valueError
        rw [hr2]
  · intro j a d2 h
    have h2 : (match mapFirstF (elemIdIs j)
          (setNodeAttr a (.str (leading ++ T ++ trailing))) doc with
        | some dd => Except.ok dd
        | none => Except.ok doc) = Except.ok d2 := h
    cases hm : mapFirstF (elemIdIs j)
        (setNodeAttr a (.str (leading ++ T ++ trailing))) doc with
    | none =>
      rw [hm] at h2
      have hd : doc = d2 := Except.ok.inj h2
      subst hd
      show (match mapFirstF (elemIdIs j)
            (setNodeAttr a (.str (leading ++ T ++ trailing))) doc with
          | some dd => Except.ok dd
          | none => Except.ok doc) = Except.ok doc
      rw [hm]
    | some dd =>
      rw [hm] at h2
      have hd : dd = d2 := Except.ok.inj h2
      subst hd
      have hidem := mapFirstF_idem (elemIdIs j)
        (setNodeAttr a (.str (leading ++ T ++ trailing)))
        (fun eid nm ats cs cs2 => rfl)
        (fun m hm2 => by cases m <;> simpa [setNodeAttr, elemIdIs] using hm2)
        (fun m hm2 => by
          cases m with
          | elem i2 nm ats cs => simp [setNodeAttr, setAttr_idem]
          | text i2 s => rfl
          | comment i2 s => rfl
          | doctype i2 s => rfl)
        doc dd hm
      show (match mapFirstF (elemIdIs j)
            (setNodeAttr a (.str (leading ++ T ++ trailing))) dd with
          | some d3 => Except.ok d3
          | none => Except.ok dd) = Except.ok dd
      rw [hidem]

/-- `<p> Hello </p>` with the string node carrying handle 2. -/
def tinyDoc : HForest :=
  .cons (.elem (some 1) (lc "p") [] (.cons (.text (some 2) (lc " Hello ")) .nil)) .nil

/-- `tinyDoc` after reinjecting "X": the old node is gone, the new string
node has no handle. -/
def tinyDocReplaced : HForest :=
  .cons (.elem (some 1) (lc "p") [] (.cons (.text none (lc " X ")) .nil)) .nil

/-- C4 counterexample: the first reinjection of the unit succeeds (writing
`" X "`), but applying reinjection a second time for the same unit with the
same translated content raises `ValueError` — it is not safe, because the
original text node was detached by `replace_with`. -/
theorem apply_translation_claim_false :
    apply_translation (Entry.text (some 2) (lc " ") (lc "Hello") (lc " "))
        (lc "X") tinyDoc = .ok tinyDocReplaced ∧
    apply_translation (Entry.text (some 2) (lc " ") (lc "Hello") (lc " "))
        (lc "X") tinyDocReplaced = .error .valueError :=
  ⟨rfl, rfl⟩

theorem apply_translation_spec_witness :
    countTextF 2 tinyDoc = 1 ∧
    ((∃ d2, apply_translation (.text (some 2) (lc " ") (lc "Hello") (lc " "))
          (lc "X") tinyDoc = .ok d2 ∧
        ReplF 2 (lc " " ++ lc "X" ++ lc " ") tinyDoc d2 ∧
        apply_translation (.text (some 2) (lc " ") (lc "Hello") (lc " "))
          (lc "X") d2 = .error .valueError) ∧
     (∀ (j : Nat) (a : LC) (d2 : HForest),
        apply_translation (.attr (some j) a (lc " ") (lc "Hello") (lc " "))
          (lc "X") tinyDoc = .ok d2 →
        apply_translation (.attr (some j) a (lc " ") (lc "Hello") (lc " "))
          (lc "X") d2 = .ok d2)) :=
  ⟨rfl, apply_translation_spec 2 (lc " ") (lc "Hello") (lc " ") (lc "X") tinyDoc rfl⟩

/-! ### C5: running the RTL adjustment twice equals running it once

The proof tracks four facts established by the first run — html attributes
set, body attributes set, an rtl stylesheet link under the first head, an
rtl script under the first body — through the later phases, and shows each
phase fixes a document satisfying its fact. -/

theorem getAttr_setAttr_same (ats : List (LC × AttrVal)) (a : LC) (v : AttrVal) :
    getAttr (setAttr ats a v) a = some v := by
  induction ats with
  | nil => simp [setAttr, getAttr]
  | cons kv rest ih =>
    obtain ⟨k, w⟩ := kv
    by_cases hk : k = a
    · simp [setAttr, getAttr, hk]
    · simp [setAttr, getAttr, hk, ih]

theorem getAttr_setAttr_other (ats : List (LC × AttrVal)) (a b : LC) (v : AttrVal)
    (hab : a ≠ b) : getAttr (setAttr ats b v) a = getAttr ats a := by
  induction ats with
  | nil => simp [setAttr, getAttr, Ne.symm hab]
  | cons kv rest ih =>
    obtain ⟨k, w⟩ := kv
    by_cases hk : k = b
    · subst hk
      simp [setAttr, getAttr, Ne.symm hab]
    · by_cases hk2 : k = a
      · simp [setAttr, getAttr, hk, hk2, hab]
      · simp [setAttr, getAttr, hk, hk2, ih]

theorem setAttr_noop (ats : List (LC × AttrVal)) (a : LC) (v : AttrVal)
    (h : getAttr ats a = some v) : setAttr ats a v = ats := by
  induction ats with
  | nil => simp [getAttr] at h
  | cons kv rest ih =>
    obtain ⟨k, w⟩ := kv
    by_cases hk : k = a
    · rw [getAttr] at h
      simp [hk] at h
      simp [setAttr, hk, h]
    · rw [getAttr] at h
      simp [hk] at h
      simp [setAttr, hk, ih h]

theorem isElemNamed_shape (nm0 : LC) (m : HNode) (h : isElemNamed nm0 m = true) :
    ∃ i ats cs, m = .elem i nm0 ats cs := by
  cases m with
  | elem i nm ats cs =>
    rw [isElemNamed] at h
    simp at h
    subst h
    exact ⟨i, ats, cs, rfl⟩
  | text i s => rw [isElemNamed] at h; exact absurd h (by simp)
  | comment i s => rw [isElemNamed] at h; exact absurd h (by simp)
  | doctype i s => rw [isElemNamed] at h; exact absurd h (by simp)

theorem findFirstN_of_p (p : HNode → Bool) (m : HNode) (hm : p m = true) :
    findFirstN p m = some m := by
  cases m with
  | elem i nm ats cs => rw [findFirstN]; simp [hm]
  | text i s => rw [findFirstN]; simp [hm]
  | comment i s => rw [findFirstN]; simp [hm]
  | doctype i s => rw [findFirstN]; simp [hm]

mutual
theorem findFirstN_some_p (p : HNode → Bool) (n m : HNode)
    (h : findFirstN p n = some m) : p m = true := by
  cases n with
  | elem i nm ats cs =>
    rw [findFirstN] at h
    by_cases hp : p (.elem i nm ats cs)
    · simp [hp] at h
      subst h
      exact hp
    · rw [if_neg hp] at h
      exact findFirstF_some_p p cs m h
  | text i s =>
    rw [findFirstN] at h
    by_cases hp : p (.text i s)
    · simp [hp] at h; subst h; exact hp
    · simp [hp] at h
  | comment i s =>
    rw [findFirstN] at h
    by_cases hp : p (.comment i s)
    · simp [hp] at h; subst h; exact hp
    · simp [hp] at h
  | doctype i s =>
    rw [findFirstN] at h
    by_cases hp : p (.doctype i s)
    · simp [hp] at h; subst h; exact hp
    · simp [hp] at h
termination_by sizeOf n

theorem findFirstF_some_p (p : HNode → Bool) (f : HForest) (m : HNode)
    (h : findFirstF p f = some m) : p m = true := by
  cases f with
  | nil => rw [findFirstF] at h; exact absurd h (by simp)
  | cons n fr =>
    rw [findFirstF] at h
    cases hn : findFirstN p n with
    | some m2 =>
      rw [hn] at h
      simp at h
      subst h
      exact findFirstN_some_p p n m2 hn
    | none =>
      rw [hn] at h
      exact findFirstF_some_p p fr m h
termination_by sizeOf f
end

mutual
theorem mapFirstN_none_find_none (p : HNode → Bool) (g : HNode → HNode) (n : HNode)
    (h : mapFirstN p g n = none) : findFirstN p n = none := by
  cases n with
  | elem i nm ats cs =>
    rw [mapFirstN] at h
    rw [findFirstN]
    by_cases hp : p (.elem i nm ats cs)
    · simp [hp] at h
    · rw [if_neg hp] at h ⊢
      cases hm : mapFirstF p g cs with
      | some cs2 => rw [hm] at h; exact absurd h (by simp)
      | none => exact mapFirstF_none_find_none p g cs hm
  | text i s =>
    rw [mapFirstN] at h
    rw [findFirstN]
    by_cases hp : p (.text i s)
    · simp [hp] at h
    · simp [hp]
  | comment i s =>
    rw [mapFirstN] at h
    rw [findFirstN]
    by_cases hp : p (.comment i s)
    · simp [hp] at h
    · simp [hp]
  | doctype i s =>
    rw [mapFirstN] at h
    rw [findFirstN]
    by_cases hp : p (.doctype i s)
    · simp [hp] at h
    · simp [hp]
termination_by sizeOf n

theorem mapFirstF_none_find_none (p : HNode → Bool) (g : HNode → HNode) (f : HForest)
    (h : mapFirstF p g f = none) : findFirstF p f = none := by
  cases f with
  | nil => rw [findFirstF]
  | cons n fr =>
    rw [mapFirstF] at h
    rw [findFirstF]
    cases hn : mapFirstN p g n with
    | some n2 => rw [hn] at h; exact absurd h (by simp)
    | none =>
      rw [hn] at h
      rw [mapFirstN_none_find_none p g n hn]
      cases hf : mapFirstF p g fr with
      | some f2 => rw [hf] at h; exact absurd h (by simp)
      | none => exact mapFirstF_none_find_none p g fr hf
termination_by sizeOf f
end

mutual
theorem mapFirstEN_ok_none_find_none (p : HNode → Bool) (g : HNode → Except Err HNode)
    (n : HNode) (h : mapFirstEN p g n = .ok none) : findFirstN p n = none := by
  cases n with
  | elem i nm ats cs =>
    rw [mapFirstEN] at h
    rw [findFirstN]
    by_cases hp : p (.elem i nm ats cs)
    · rw [if_pos hp] at h
      cases hg : g (.elem i nm ats cs) with
      | error e => rw [hg] at h; exact absurd h (by simp)
      | ok n2 => rw [hg] at h; exact absurd h (by simp)
    · rw [if_neg hp] at h ⊢
      cases hm : mapFirstEF p g cs with
      | error e => rw [hm] at h; exact absurd h (by simp)
      | ok o =>
        cases o with
        | some cs2 => rw [hm] at h; exact absurd h (by simp)
        | none => exact mapFirstEF_ok_none_find_none p g cs hm
  | text i s =>
    rw [mapFirstEN] at h
    rw [findFirstN]
    by_cases hp : p (.text i s)
    · rw [if_pos hp] at h
      cases hg : g (.text i s) with
      | error e => rw [hg] at h; exact absurd h (by simp)
      | ok n2 => rw [hg] at h; exact absurd h (by simp)
    · simp [hp]
  | comment i s =>
    rw [mapFirstEN] at h
    rw [findFirstN]
    by_cases hp : p (.comment i s)
    · rw [if_pos hp] at h
      cases hg : g (.comment i s) with
      | error e => rw [hg] at h; exact absurd h (by simp)
      | ok n2 => rw [hg] at h; exact absurd h (by simp)
    · simp [hp]
  | doctype i s =>
    rw [mapFirstEN] at h
    rw [findFirstN]
    by_cases hp : p (.doctype i s)
    · rw [if_pos hp] at h
      cases hg : g (.doctype i s) with
      | error e => rw [hg] at h; exact absurd h (by simp)
      | ok n2 => rw [hg] at h; exact absurd h (by simp)
    · simp [hp]
termination_by sizeOf n

theorem mapFirstEF_ok_none_find_none (p : HNode → Bool) (g : HNode → Except Err HNode)
    (f : HForest) (h : mapFirstEF p g f = .ok none) : findFirstF p f = none := by
  cases f with
  | nil => rw [findFirstF]
  | cons n fr =>
    rw [mapFirstEF] at h
    rw [findFirstF]
    cases hn : mapFirstEN p g n with
    | error e => rw [hn] at h; exact absurd h (by simp)
    | ok o =>
      cases o with
      | some n2 => rw [hn] at h; exact absurd h (by simp)
      | none =>
        rw [hn] at h
        rw [mapFirstEN_ok_none_find_none p g n hn]
        cases hf : mapFirstEF p g fr with
        | error e => rw [hf] at h; exact absurd h (by simp)
        | ok o2 =>
          cases o2 with
          | some f2 => rw [hf] at h; exact absurd h (by simp)
          | none => exact mapFirstEF_ok_none_find_none p g fr hf
termination_by sizeOf f
end

mutual
theorem mapFirstEN_err (p : HNode → Bool) (g : HNode → Except Err HNode)
    (n : HNode) (e : Err) (h : mapFirstEN p g n = .error e) :
    ∃ m, findFirstN p n = some m ∧ g m = .error e := by
  cases n with
  | elem i nm ats cs =>
    rw [mapFirstEN] at h
    by_cases hp : p (.elem i nm ats cs)
    · rw [if_pos hp] at h
      cases hg : g (.elem i nm ats cs) with
      | error e2 =>
        rw [hg] at h
        simp at h
        subst h
        exact ⟨_, findFirstN_of_p p _ hp, hg⟩
      | ok n2 => rw [hg] at h; exact absurd h (by simp)
    · rw [if_neg hp] at h
      cases hm : mapFirstEF p g cs with
      | error e2 =>
        rw [hm] at h
        simp at h
        subst h
        obtain ⟨m, hfind, hgm⟩ := mapFirstEF_err p g cs e2 hm
        refine ⟨m, ?_, hgm⟩
        rw [findFirstN, if_neg hp]
        exact hfind
      | ok o =>
        cases o with
        | some cs2 => rw [hm] at h; exact absurd h (by simp)
        | none => rw [hm] at h; exact absurd h (by simp)
  | text i s =>
    rw [mapFirstEN] at h
    by_cases hp : p (.text i s)
    · rw [if_pos hp] at h
      cases hg : g (.text i s) with
      | error e2 =>
        rw [hg] at h
        simp at h
        subst h
        exact ⟨_, findFirstN_of_p p _ hp, hg⟩
      | ok n2 => rw [hg] at h; exact absurd h (by simp)
    · rw [if_neg hp] at h
      exact absurd h (by simp)
  | comment i s =>
    rw [mapFirstEN] at h
    by_cases hp : p (.comment i s)
    · rw [if_pos hp] at h
      cases hg : g (.comment i s) with
      | error e2 =>
        rw [hg] at h
        simp at h
        subst h
        exact ⟨_, findFirstN_of_p p _ hp, hg⟩
      | ok n2 => rw [hg] at h; exact absurd h (by simp)
    · rw [if_neg hp] at h
      exact absurd h (by simp)
  | doctype i s =>
    rw [mapFirstEN] at h
    by_cases hp : p (.doctype i s)
    · rw [if_pos hp] at h
      cases hg : g (.doctype i s) with
      | error e2 =>
        rw [hg] at h
        simp at h
        subst h
        exact ⟨_, findFirstN_of_p p _ hp, hg⟩
      | ok n2 => rw [hg] at h; exact absurd h (by simp)
    · rw [if_neg hp] at h
      exact absurd h (by simp)
termination_by sizeOf n

theorem mapFirstEF_err (p : HNode → Bool) (g : HNode → Except Err HNode)
    (f : HForest) (e : Err) (h : mapFirstEF p g f = .error e) :
    ∃ m, findFirstF p f = some m ∧ g m = .error e := by
  cases f with
  | nil => rw [mapFirstEF] at h; exact absurd h (by simp)
  | cons n fr =>
    rw [mapFirstEF] at h
    cases hn : mapFirstEN p g n with
    | error e2 =>
      rw [hn] at h
      simp at h
      subst h
      obtain ⟨m, hfind, hgm⟩ := mapFirstEN_err p g n e2 hn
      refine ⟨m, ?_, hgm⟩
      rw [findFirstF, hfind]
    | ok o =>
      cases o with
      | some n2 => rw [hn] at h; exact absurd h (by simp)
      | none =>
        rw [hn] at h
        cases hf : mapFirstEF p g fr with
        | error e2 =>
          rw [hf] at h
          simp at h
          subst h
          obtain ⟨m, hfind, hgm⟩ := mapFirstEF_err p g fr e2 hf
          refine ⟨m, ?_, hgm⟩
          rw [findFirstF, mapFirstEN_ok_none_find_none p g n hn]
          exact hfind
        | ok o2 =>
          cases o2 with
          | some f2 => rw [hf] at h; exact absurd h (by simp)
          | none => rw [hf] at h; exact absurd h (by simp)
termination_by sizeOf f
end

/-- The nodes the adjuster can create and insert. -/
def benignNode (r : HNode) : Prop := r = newLink ∨ r = rtlScriptTag

/-! `SimF prot f f2`: `f2` is `f` with, at any depth, attribute changes
confined to elements whose name is outside `prot`, and insertions of the
adjuster's own (benign) nodes.  Ids, names, node kinds, order and the
attributes of `prot`-named elements are preserved. -/
mutual
inductive SimN (prot : LC → Prop) : HNode → HNode → Prop where
  | refl (n : HNode) : SimN prot n n
  | elem (eid : Option Nat) (nm : LC) (ats ats2 : List (LC × AttrVal)) (cs cs2 : HForest) :
      SimF prot cs cs2 → (prot nm → ats2 = ats) →
      SimN prot (.elem eid nm ats cs) (.elem eid nm ats2 cs2)
inductive SimF (prot : LC → Prop) : HForest → HForest → Prop where
  | nil : SimF prot .nil .nil
  | cons (n n2 : HNode) (f f2 : HForest) :
      SimN prot n n2 → SimF prot f f2 → SimF prot (.cons n f) (.cons n2 f2)
  | ins (r : HNode) (f f2 : HForest) :
      benignNode r → SimF prot f f2 → SimF prot f (.cons r f2)
end

theorem SimF_self (prot : LC → Prop) : ∀ f, SimF prot f f
  | .nil => SimF.nil
  | .cons n f => SimF.cons n n f f (SimN.refl n) (SimF_self prot f)

theorem SimF_appendOne (prot : LC → Prop) (r : HNode) (hb : benignNode r) :
    ∀ f, SimF prot f (f.append (.cons r .nil))
  | .nil => by
    rw [HForest.append]
    exact SimF.ins r .nil .nil hb SimF.nil
  | .cons n fr => by
    rw [HForest.append]
    exact SimF.cons n n fr (fr.append (.cons r .nil)) (SimN.refl n)
      (SimF_appendOne prot r hb fr)

mutual
theorem insAfterN_sim (prot : LC → Prop) (q : HNode → Bool) (r : HNode)
    (hb : benignNode r) (n n2 : HNode) (h : insAfterN q r n = some n2) :
    SimN prot n n2 := by
  cases n with
  | elem i nm ats cs =>
    cases hm : insAfterF q r cs with
    | none => rw [insAfterN, hm] at h; exact absurd h (by simp)
    | some cs2 =>
      rw [insAfterN, hm] at h
      simp at h
      subst h
      exact SimN.elem i nm ats ats cs cs2 (insAfterF_sim prot q r hb cs cs2 hm)
        (fun _ => rfl)
  | text i s => rw [insAfterN] at h; exact absurd h (by simp)
  | comment i s => rw [insAfterN] at h; exact absurd h (by simp)
  | doctype i s => rw [insAfterN] at h; exact absurd h (by simp)
termination_by sizeOf n

theorem insAfterF_sim (prot : LC → Prop) (q : HNode → Bool) (r : HNode)
    (hb : benignNode r) (f f2 : HForest) (h : insAfterF q r f = some f2) :
    SimF prot f f2 := by
  cases f with
  | nil => rw [insAfterF] at h; exact absurd h (by simp)
  | cons n fr =>
    rw [insAfterF] at h
    by_cases hq : q n
    · rw [if_pos hq] at h
      simp at h
      subst h
      exact SimF.cons n n fr (.cons r fr) (SimN.refl n)
        (SimF.ins r fr fr hb (SimF_self prot fr))
    · rw [if_neg hq] at h
      cases hn : insAfterN q r n with
      | some nn =>
        rw [hn] at h
        simp at h
        subst h
        exact SimF.cons n nn fr fr (insAfterN_sim prot q r hb n nn hn) (SimF_self prot fr)
      | none =>
        rw [hn] at h
        cases hf : insAfterF q r fr with
        | none => rw [hf] at h; exact absurd h (by simp)
        | some fr2 =>
          rw [hf] at h
          simp at h
          subst h
          exact SimF.cons n n fr fr2 (SimN.refl n) (insAfterF_sim prot q r hb fr fr2 hf)
termination_by sizeOf f
end

mutual
theorem mapFirstN_sim (prot : LC → Prop) (p : HNode → Bool) (g : HNode → HNode)
    (hg : ∀ m, p m = true → SimN prot m (g m))
    (n n2 : HNode) (h : mapFirstN p g n = some n2) : SimN prot n n2 := by
  cases n with
  | elem i nm ats cs =>
    by_cases hp : p (.elem i nm ats cs)
    · rw [mapFirstN_of_p p g _ hp] at h
      simp at h
      subst h
      exact hg _ hp
    · rw [mapFirstN, if_neg hp] at h
      cases hm : mapFirstF p g cs with
      | none => rw [hm] at h; exact absurd h (by simp)
      | some cs2 =>
        rw [hm] at h
        simp at h
        subst h
        exact SimN.elem i nm ats ats cs cs2
          (mapFirstF_sim prot p g hg cs cs2 hm) (fun _ => rfl)
  | text i s =>
    by_cases hp : p (.text i s)
    · rw [mapFirstN_of_p p g _ hp] at h
      simp at h
      subst h
      exact hg _ hp
    · rw [mapFirstN, if_neg hp] at h
      exact absurd h (by simp)
  | comment i s =>
    by_cases hp : p (.comment i s)
    · rw [mapFirstN_of_p p g _ hp] at h
      simp at h
      subst h
      exact hg _ hp
    · rw [mapFirstN, if_neg hp] at h
      exact absurd h (by simp)
  | doctype i s =>
    by_cases hp : p (.doctype i s)
    · rw [mapFirstN_of_p p g _ hp] at h
      simp at h
      subst h
      exact hg _ hp
    · rw [mapFirstN, if_neg hp] at h
      exact absurd h (by simp)
termination_by sizeOf n

theorem mapFirstF_sim (prot : LC → Prop) (p : HNode → Bool) (g : HNode → HNode)
    (hg : ∀ m, p m = true → SimN prot m (g m))
    (f f2 : HForest) (h : mapFirstF p g f = some f2) : SimF prot f f2 := by
  cases f with
  | nil => rw [mapFirstF] at h; exact absurd h (by simp)
  | cons n fr =>
    rw [mapFirstF] at h
    cases hn : mapFirstN p g n with
    | some n2 =>
      rw [hn] at h
      simp at h
      subst h
      exact SimF.cons n n2 fr fr (mapFirstN_sim prot p g hg n n2 hn) (SimF_self prot fr)
    | none =>
      rw [hn] at h
      cases hf : mapFirstF p g fr with
      | none => rw [hf] at h; exact absurd h (by simp)
      | some fr2 =>
        rw [hf] at h
        simp at h
        subst h
        exact SimF.cons n n fr fr2 (SimN.refl n) (mapFirstF_sim prot p g hg fr fr2 hf)
termination_by sizeOf f
end

mutual
theorem mapFirstEN_sim (prot : LC → Prop) (p : HNode → Bool)
    (g : HNode → Except Err HNode)
    (hg : ∀ m m2, p m = true → g m = .ok m2 → SimN prot m m2)
    (n n2 : HNode) (h : mapFirstEN p g n = .ok (some n2)) : SimN prot n n2 := by
  cases n with
  | elem i nm ats cs =>
    rw [mapFirstEN] at h
    by_cases hp : p (.elem i nm ats cs)
    · rw [if_pos hp] at h
      cases hgv : g (.elem i nm ats cs) with
      | error e => rw [hgv] at h; exact absurd h (by simp)
      | ok m2 =>
        rw [hgv] at h
        simp at h
        subst h
        exact hg _ _ hp hgv
    · rw [if_neg hp] at h
      cases hm : mapFirstEF p g cs with
      | error e => rw [hm] at h; exact absurd h (by simp)
      | ok o =>
        cases o with
        | none => rw [hm] at h; exact absurd h (by simp)
        | some cs2 =>
          rw [hm] at h
          simp at h
          subst h
          exact SimN.elem i nm ats ats cs cs2
            (mapFirstEF_sim prot p g hg cs cs2 hm) (fun _ => rfl)
  | text i s =>
    rw [mapFirstEN] at h
    by_cases hp : p (.text i s)
    · rw [if_pos hp] at h
      cases hgv : g (.text i s) with
      | error e => rw [hgv] at h; exact absurd h (by simp)
      | ok m2 =>
        rw [hgv] at h
        simp at h
        subst h
        exact hg _ _ hp hgv
    · rw [if_neg hp] at h
      exact absurd h (by simp)
  | comment i s =>
    rw [mapFirstEN] at h
    by_cases hp : p (.comment i s)
    · rw [if_pos hp] at h
      cases hgv : g (.comment i s) with
      | error e => rw [hgv] at h; exact absurd h (by simp)
      | ok m2 =>
        rw [hgv] at h
        simp at h
        subst h
        exact hg _ _ hp hgv
    · rw [if_neg hp] at h
      exact absurd h (by simp)
  | doctype i s =>
    rw [mapFirstEN] at h
    by_cases hp : p (.doctype i s)
    · rw [if_pos hp] at h
      cases hgv : g (.doctype i s) with
      | error e => rw [hgv] at h; exact absurd h (by simp)
      | ok m2 =>
        rw [hgv] at h
        simp at h
        subst h
        exact hg _ _ hp hgv
    · rw [if_neg hp] at h
      exact absurd h (by simp)
termination_by sizeOf n

theorem mapFirstEF_sim (prot : LC → Prop) (p : HNode → Bool)
    (g : HNode → Except Err HNode)
    (hg : ∀ m m2, p m = true → g m = .ok m2 → SimN prot m m2)
    (f f2 : HForest) (h : mapFirstEF p g f = .ok (some f2)) : SimF prot f f2 := by
  cases f with
  | nil => rw [mapFirstEF] at h; exact absurd h (by simp)
  | cons n fr =>
    rw [mapFirstEF] at h
    cases hn : mapFirstEN p g n with
    | error e => rw [hn] at h; exact absurd h (by simp)
    | ok o =>
      cases o with
      | some n2 =>
        rw [hn] at h
        simp at h
        subst h
        exact SimF.cons n n2 fr fr (mapFirstEN_sim prot p g hg n n2 hn) (SimF_self prot fr)
      | none =>
        rw [hn] at h
        cases hf : mapFirstEF p g fr with
        | error e => rw [hf] at h; exact absurd h (by simp)
        | ok o2 =>
          cases o2 with
          | none => rw [hf] at h; exact absurd h (by simp)
          | some fr2 =>
            rw [hf] at h
            simp at h
            subst h
            exact SimF.cons n n fr fr2 (SimN.refl n) (mapFirstEF_sim prot p g hg fr fr2 hf)
termination_by sizeOf f
end

theorem benign_find_none (nm0 : LC) (r : HNode) (hbn : benignNode r)
    (hq : isElemNamed nm0 r = false) : findFirstN (isElemNamed nm0) r = none := by
  cases hbn with
  | inl h =>
    subst h
    unfold newLink at hq ⊢
    rw [findFirstN, if_neg (by simp [hq]), findFirstF]
  | inr h =>
    subst h
    unfold rtlScriptTag at hq ⊢
    rw [findFirstN, if_neg (by simp [hq]), findFirstF]

mutual
theorem simN_find_trans (prot : LC → Prop) (nm0 : LC)
    (hb : ∀ r, benignNode r → isElemNamed nm0 r = false)
    (n n2 : HNode) (h : SimN prot n n2) :
    (findFirstN (isElemNamed nm0) n = none → findFirstN (isElemNamed nm0) n2 = none) ∧
    (∀ m, findFirstN (isElemNamed nm0) n = some m →
      ∃ m2, findFirstN (isElemNamed nm0) n2 = some m2 ∧ SimN prot m m2) := by
  cases h with
  | refl => exact ⟨fun hx => hx, fun m hm => ⟨m, hm, SimN.refl m⟩⟩
  | elem eid nm ats ats2 cs cs2 hcs hprot =>
    by_cases hq : isElemNamed nm0 (HNode.elem eid nm ats cs) = true
    · have hq2 : isElemNamed nm0 (HNode.elem eid nm ats2 cs2) = true := by
        rw [isElemNamed] at hq ⊢
        exact hq
      constructor
      · intro hx
        rw [findFirstN, if_pos hq] at hx
        exact absurd hx (by simp)
      · intro m hm
        rw [findFirstN, if_pos hq] at hm
        simp at hm
        subst hm
        refine ⟨.elem eid nm ats2 cs2, ?_, SimN.elem eid nm ats ats2 cs cs2 hcs hprot⟩
        rw [findFirstN, if_pos hq2]
    · have hq2 : ¬ isElemNamed nm0 (HNode.elem eid nm ats2 cs2) = true := by
        rw [isElemNamed] at hq ⊢
        exact hq
      have ih := simF_find_trans prot nm0 hb cs cs2 hcs
      constructor
      · intro hx
        rw [findFirstN, if_neg hq] at hx
        rw [findFirstN, if_neg hq2]
        exact ih.1 hx
      · intro m hm
        rw [findFirstN, if_neg hq] at hm
        obtain ⟨m2, hf2, hsim⟩ := ih.2 m hm
        refine ⟨m2, ?_, hsim⟩
        rw [findFirstN, if_neg hq2]
        exact hf2
termination_by sizeOf n2

theorem simF_find_trans (prot : LC → Prop) (nm0 : LC)
    (hb : ∀ r, benignNode r → isElemNamed nm0 r = false)
    (f f2 : HForest) (h : SimF prot f f2) :
    (findFirstF (isElemNamed nm0) f = none → findFirstF (isElemNamed nm0) f2 = none) ∧
    (∀ m, findFirstF (isElemNamed nm0) f = some m →
      ∃ m2, findFirstF (isElemNamed nm0) f2 = some m2 ∧ SimN prot m m2) := by
  cases h with
  | nil => exact ⟨fun hx => hx, fun m hm => ⟨m, hm, SimN.refl m⟩⟩
  | cons n n2 fa f2a hn hf =>
    have ihn := simN_find_trans prot nm0 hb n n2 hn
    have ihf := simF_find_trans prot nm0 hb fa f2a hf
    constructor
    · intro hx
      rw [findFirstF] at hx ⊢
      cases hfn : findFirstN (isElemNamed nm0) n with
      | some m => rw [hfn] at hx; exact absurd hx (by simp)
      | none =>
        rw [hfn] at hx
        rw [ihn.1 hfn]
        exact ihf.1 hx
    · intro m hm
      rw [findFirstF] at hm
      cases hfn : findFirstN (isElemNamed nm0) n with
      | some m0 =>
        rw [hfn] at hm
        simp at hm
        subst hm
        obtain ⟨m2, hm2, hsim⟩ := ihn.2 m0 hfn
        refine ⟨m2, ?_, hsim⟩
        rw [findFirstF, hm2]
      | none =>
        rw [hfn] at hm
        obtain ⟨m2, hm2, hsim⟩ := ihf.2 m hm
        refine ⟨m2, ?_, hsim⟩
        rw [findFirstF, ihn.1 hfn, hm2]
  | ins r fdrop f2a hbR hsim =>
    have ihf := simF_find_trans prot nm0 hb f f2a hsim
    have hr : findFirstN (isElemNamed nm0) r = none :=
      benign_find_none nm0 r hbR (hb r hbR)
    constructor
    · intro hx
      rw [findFirstF, hr]
      exact ihf.1 hx
    · intro m hm
      obtain ⟨m2, hm2, hsim2⟩ := ihf.2 m hm
      refine ⟨m2, ?_, hsim2⟩
      rw [findFirstF, hr, hm2]
termination_by sizeOf f2
end

theorem simN_elem_eq (prot : LC → Prop) (m m2 : HNode) (h : SimN prot m m2)
    (i : Option Nat) (nm : LC) (ats : List (LC × AttrVal)) (cs : HForest)
    (hm : m = .elem i nm ats cs) (hprot : prot nm) :
    ∃ cs2, m2 = .elem i nm ats cs2 ∧ SimF prot cs cs2 := by
  cases h with
  | refl => exact ⟨cs, hm, SimF_self prot cs⟩
  | elem eid nm2 ats1 ats2 cs1 cs2 hcs hpr =>
    injection hm with h1 h2 h3 h4
    subst h1
    subst h2
    subst h3
    subst h4
    rw [hpr hprot]
    exact ⟨cs2, rfl, hcs⟩

mutual
theorem simN_exists_all (s : HNode → Bool)
    (hs : ∀ i nm ats cs cs2, s (.elem i nm ats cs) = s (.elem i nm ats cs2))
    (n n2 : HNode) (h : SimN (fun _ => True) n n2)
    (hx : existsNodeN s n = true) : existsNodeN s n2 = true := by
  cases h with
  | refl => exact hx
  | elem eid nm ats ats2 cs cs2 hcs hprot =>
    have hats : ats2 = ats := hprot trivial
    rw [existsNodeN] at hx ⊢
    rw [hats]
    rcases (Bool.or_eq_true _ _).mp hx with h1 | h1
    · rw [hs eid nm ats cs cs2] at h1
      exact (Bool.or_eq_true _ _).mpr (.inl h1)
    · exact (Bool.or_eq_true _ _).mpr (.inr (simF_exists_all s hs cs cs2 hcs h1))
termination_by sizeOf n2

theorem simF_exists_all (s : HNode → Bool)
    (hs : ∀ i nm ats cs cs2, s (.elem i nm ats cs) = s (.elem i nm ats cs2))
    (f f2 : HForest) (h : SimF (fun _ => True) f f2)
    (hx : existsNodeF s f = true) : existsNodeF s f2 = true := by
  cases h with
  | nil => exact hx
  | cons n n2 fa f2a hn hf =>
    rw [existsNodeF] at hx ⊢
    rcases (Bool.or_eq_true _ _).mp hx with h1 | h1
    · exact (Bool.or_eq_true _ _).mpr (.inl (simN_exists_all s hs n n2 hn h1))
    · exact (Bool.or_eq_true _ _).mpr (.inr (simF_exists_all s hs fa f2a hf h1))
  | ins r fdrop f2a hbR hsim =>
    rw [existsNodeF]
    exact (Bool.or_eq_true _ _).mpr (.inr (simF_exists_all s hs f f2a hsim hx))
termination_by sizeOf f2
end

mutual
theorem mapFirstN_est (p : HNode → Bool) (g : HNode → HNode)
    (hp : ∀ eid nm ats cs cs2, p (.elem eid nm ats cs) = p (.elem eid nm ats cs2))
    (hgp : ∀ m, p m = true → p (g m) = true)
    (n n2 : HNode) (h : mapFirstN p g n = some n2) :
    ∃ m, findFirstN p n = some m ∧ findFirstN p n2 = some (g m) := by
  cases n with
  | elem i nm ats cs =>
    by_cases hpe : p (.elem i nm ats cs)
    · rw [mapFirstN_of_p p g _ hpe] at h
      simp at h
      subst h
      exact ⟨_, findFirstN_of_p p _ hpe, findFirstN_of_p p _ (hgp _ hpe)⟩
    · rw [mapFirstN, if_neg hpe] at h
      cases hm : mapFirstF p g cs with
      | none => rw [hm] at h; exact absurd h (by simp)
      | some cs2 =>
        rw [hm] at h
        simp at h
        subst h
        obtain ⟨m, hfind, hnext⟩ := mapFirstF_est p g hp hgp cs cs2 hm
        have hpe2 : ¬ p (.elem i nm ats cs2) = true := by
          rw [← hp i nm ats cs cs2]
          exact hpe
        refine ⟨m, ?_, ?_⟩
        · rw [findFirstN, if_neg hpe]
          exact hfind
        · rw [findFirstN, if_neg hpe2]
          exact hnext
  | text i s =>
    by_cases hpe : p (.text i s)
    · rw [mapFirstN_of_p p g _ hpe] at h
      simp at h
      subst h
      exact ⟨_, findFirstN_of_p p _ hpe, findFirstN_of_p p _ (hgp _ hpe)⟩
    · rw [mapFirstN, if_neg hpe] at h
      exact absurd h (by simp)
  | comment i s =>
    by_cases hpe : p (.comment i s)
    · rw [mapFirstN_of_p p g _ hpe] at h
      simp at h
      subst h
      exact ⟨_, findFirstN_of_p p _ hpe, findFirstN_of_p p _ (hgp _ hpe)⟩
    · rw [mapFirstN, if_neg hpe] at h
      exact absurd h (by simp)
  | doctype i s =>
    by_cases hpe : p (.doctype i s)
    · rw [mapFirstN_of_p p g _ hpe] at h
      simp at h
      subst h
      exact ⟨_, findFirstN_of_p p _ hpe, findFirstN_of_p p _ (hgp _ hpe)⟩
    · rw [mapFirstN, if_neg hpe] at h
      exact absurd h (by simp)
termination_by sizeOf n

theorem mapFirstF_est (p : HNode → Bool) (g : HNode → HNode)
    (hp : ∀ eid nm ats cs cs2, p (.elem eid nm ats cs) = p (.elem eid nm ats cs2))
    (hgp : ∀ m, p m = true → p (g m) = true)
    (f f2 : HForest) (h : mapFirstF p g f = some f2) :
    ∃ m, findFirstF p f = some m ∧ findFirstF p f2 = some (g m) := by
  cases f with
  | nil => rw [mapFirstF] at h; exact absurd h (by simp)
  | cons n fr =>
    rw [mapFirstF] at h
    cases hn : mapFirstN p g n with
    | some n2 =>
      rw [hn] at h
      simp at h
      subst h
      obtain ⟨m, hfind, hnext⟩ := mapFirstN_est p g hp hgp n n2 hn
      exact ⟨m, by rw [findFirstF, hfind], by rw [findFirstF, hnext]⟩
    | none =>
      rw [hn] at h
      cases hf : mapFirstF p g fr with
      | none => rw [hf] at h; exact absurd h (by simp)
      | some fr2 =>
        rw [hf] at h
        simp at h
        subst h
        obtain ⟨m, hfind, hnext⟩ := mapFirstF_est p g hp hgp fr fr2 hf
        have hfn : findFirstN p n = none := mapFirstN_none_find_none p g n hn
        exact ⟨m, by rw [findFirstF, hfn]; exact hfind, by rw [findFirstF, hfn]; exact hnext⟩
termination_by sizeOf f
end

mutual
theorem mapFirstEN_est (p : HNode → Bool) (g : HNode → Except Err HNode)
    (hp : ∀ eid nm ats cs cs2, p (.elem eid nm ats cs) = p (.elem eid nm ats cs2))
    (hgp : ∀ m m2, p m = true → g m = .ok m2 → p m2 = true)
    (n n2 : HNode) (h : mapFirstEN p g n = .ok (some n2)) :
    ∃ m m2, findFirstN p n = some m ∧ g m = .ok m2 ∧ findFirstN p n2 = some m2 := by
  cases n with
  | elem i nm ats cs =>
    rw [mapFirstEN] at h
    by_cases hpe : p (.elem i nm ats cs)
    · rw [if_pos hpe] at h
      cases hg : g (.elem i nm ats cs) with
      | error e => rw [hg] at h; exact absurd h (by simp)
      | ok m2 =>
        rw [hg] at h
        simp at h
        subst h
        exact ⟨_, _, findFirstN_of_p p _ hpe, hg, findFirstN_of_p p _ (hgp _ _ hpe hg)⟩
    · rw [if_neg hpe] at h
      cases hm : mapFirstEF p g cs with
      | error e => rw [hm] at h; exact absurd h (by simp)
      | ok o =>
        cases o with
        | none => rw [hm] at h; exact absurd h (by simp)
        | some cs2 =>
          rw [hm] at h
          simp at h
          subst h
          obtain ⟨m, m2, hfind, hgm, hnext⟩ := mapFirstEF_est p g hp hgp cs cs2 hm
          have hpe2 : ¬ p (.elem i nm ats cs2) = true := by
            rw [← hp i nm ats cs cs2]
            exact hpe
          refine ⟨m, m2, ?_, hgm, ?_⟩
          · rw [findFirstN, if_neg hpe]
            exact hfind
          · rw [findFirstN, if_neg hpe2]
            exact hnext
  | text i s =>
    rw [mapFirstEN] at h
    by_cases hpe : p (.text i s)
    · rw [if_pos hpe] at h
      cases hg : g (.text i s) with
      | error e => rw [hg] at h; exact absurd h (by simp)
      | ok m2 =>
        rw [hg] at h
        simp at h
        subst h
        exact ⟨_, _, findFirstN_of_p p _ hpe, hg, findFirstN_of_p p _ (hgp _ _ hpe hg)⟩
    · rw [if_neg hpe] at h
      exact absurd h (by simp)
  | comment i s =>
    rw [mapFirstEN] at h
    by_cases hpe : p (.comment i s)
    · rw [if_pos hpe] at h
      cases hg : g (.comment i s) with
      | error e => rw [hg] at h; exact absurd h (by simp)
      | ok m2 =>
        rw [hg] at h
        simp at h
        subst h
        exact ⟨_, _, findFirstN_of_p p _ hpe, hg, findFirstN_of_p p _ (hgp _ _ hpe hg)⟩
    · rw [if_neg hpe] at h
      exact absurd h (by simp)
  | doctype i s =>
    rw [mapFirstEN] at h
    by_cases hpe : p (.doctype i s)
    · rw [if_pos hpe] at h
      cases hg : g (.doctype i s) with
      | error e => rw [hg] at h; exact absurd h (by simp)
      | ok m2 =>
        rw [hg] at h
        simp at h
        subst h
        exact ⟨_, _, findFirstN_of_p p _ hpe, hg, findFirstN_of_p p _ (hgp _ _ hpe hg)⟩
    · rw [if_neg hpe] at h
      exact absurd h (by simp)
termination_by sizeOf n

theorem mapFirstEF_est (p : HNode → Bool) (g : HNode → Except Err HNode)
    (hp : ∀ eid nm ats cs cs2, p (.elem eid nm ats cs) = p (.elem eid nm ats cs2))
    (hgp : ∀ m m2, p m = true → g m = .ok m2 → p m2 = true)
    (f f2 : HForest) (h : mapFirstEF p g f = .ok (some f2)) :
    ∃ m m2, findFirstF p f = some m ∧ g m = .ok m2 ∧ findFirstF p f2 = some m2 := by
  cases f with
  | nil => rw [mapFirstEF] at h; exact absurd h (by simp)
  | cons n fr =>
    rw [mapFirstEF] at h
    cases hn : mapFirstEN p g n with
    | error e => rw [hn] at h; exact absurd h (by simp)
    | ok o =>
      cases o with
      | some n2 =>
        rw [hn] at h
        simp at h
        subst h
        obtain ⟨m, m2, hfind, hgm, hnext⟩ := mapFirstEN_est p g hp hgp n n2 hn
        exact ⟨m, m2, by rw [findFirstF, hfind], hgm, by rw [findFirstF, hnext]⟩
      | none =>
        rw [hn] at h
        cases hf : mapFirstEF p g fr with
        | error e => rw [hf] at h; exact absurd h (by simp)
        | ok o2 =>
          cases o2 with
          | none => rw [hf] at h; exact absurd h (by simp)
          | some fr2 =>
            rw [hf] at h
            simp at h
            subst h
            obtain ⟨m, m2, hfind, hgm, hnext⟩ := mapFirstEF_est p g hp hgp fr fr2 hf
            have hfn : findFirstN p n = none := mapFirstEN_ok_none_find_none p g n hn
            exact ⟨m, m2, by rw [findFirstF, hfn]; exact hfind, hgm,
              by rw [findFirstF, hfn]; exact hnext⟩
termination_by sizeOf f
end

mutual
theorem find_some_fixN (p : HNode → Bool) (g : HNode → HNode) (n m : HNode)
    (hf : findFirstN p n = some m) (hfix : g m = m) : mapFirstN p g n = some n := by
  cases n with
  | elem i nm ats cs =>
    by_cases hpe : p (.elem i nm ats cs)
    · rw [findFirstN, if_pos hpe] at hf
      simp at hf
      subst hf
      rw [mapFirstN_of_p p g _ hpe, hfix]
    · rw [findFirstN, if_neg hpe] at hf
      rw [mapFirstN, if_neg hpe]
      rw [find_some_fixF p g cs m hf hfix]
  | text i s =>
    by_cases hpe : p (.text i s)
    · rw [findFirstN, if_pos hpe] at hf
      simp at hf
      subst hf
      rw [mapFirstN_of_p p g _ hpe, hfix]
    · rw [findFirstN, if_neg hpe] at hf
      exact absurd hf (by simp)
  | comment i s =>
    by_cases hpe : p (.comment i s)
    · rw [findFirstN, if_pos hpe] at hf
      simp at hf
      subst hf
      rw [mapFirstN_of_p p g _ hpe, hfix]
    · rw [findFirstN, if_neg hpe] at hf
      exact absurd hf (by simp)
  | doctype i s =>
    by_cases hpe : p (.doctype i s)
    · rw [findFirstN, if_pos hpe] at hf
      simp at hf
      subst hf
      rw [mapFirstN_of_p p g _ hpe, hfix]
    · rw [findFirstN, if_neg hpe] at hf
      exact absurd hf (by simp)
termination_by sizeOf n

theorem find_some_fixF (p : HNode → Bool) (g : HNode → HNode) (f : HForest) (m : HNode)
    (hf : findFirstF p f = some m) (hfix : g m = m) : mapFirstF p g f = some f := by
  cases f with
  | nil => rw [findFirstF] at hf; exact absurd hf (by simp)
  | cons n fr =>
    rw [findFirstF] at hf
    cases hn : findFirstN p n with
    | some m0 =>
      rw [hn] at hf
      simp at hf
      subst hf
      rw [mapFirstF, find_some_fixN p g n m0 hn hfix]
    | none =>
      rw [hn] at hf
      rw [mapFirstF, find_none_mapFirstN p g n hn, find_some_fixF p g fr m hf hfix]
termination_by sizeOf f
end

mutual
theorem find_some_fixEN (p : HNode → Bool) (g : HNode → Except Err HNode) (n m : HNode)
    (hf : findFirstN p n = some m) (hfix : g m = .ok m) :
    mapFirstEN p g n = .ok (some n) := by
  cases n with
  | elem i nm ats cs =>
    by_cases hpe : p (.elem i nm ats cs)
    · rw [findFirstN, if_pos hpe] at hf
      simp at hf
      subst hf
      rw [mapFirstEN, if_pos hpe, hfix]
    · rw [findFirstN, if_neg hpe] at hf
      rw [mapFirstEN, if_neg hpe]
      rw [find_some_fixEF p g cs m hf hfix]
  | text i s =>
    by_cases hpe : p (.text i s)
    · rw [findFirstN, if_pos hpe] at hf
      simp at hf
      subst hf
      rw [mapFirstEN, if_pos hpe, hfix]
    · rw [findFirstN, if_neg hpe] at hf
      exact absurd hf (by simp)
  | comment i s =>
    by_cases hpe : p (.comment i s)
    · rw [findFirstN, if_pos hpe] at hf
      simp at hf
      subst hf
      rw [mapFirstEN, if_pos hpe, hfix]
    · rw [findFirstN, if_neg hpe] at hf
      exact absurd hf (by simp)
  | doctype i s =>
    by_cases hpe : p (.doctype i s)
    · rw [findFirstN, if_pos hpe] at hf
      simp at hf
      subst hf
      rw [mapFirstEN, if_pos hpe, hfix]
    · rw [findFirstN, if_neg hpe] at hf
      exact absurd hf (by simp)
termination_by sizeOf n

theorem find_some_fixEF (p : HNode → Bool) (g : HNode → Except Err HNode)
    (f : HForest) (m : HNode)
    (hf : findFirstF p f = some m) (hfix : g m = .ok m) :
    mapFirstEF p g f = .ok (some f) := by
  cases f with
  | nil => rw [findFirstF] at hf; exact absurd hf (by simp)
  | cons n fr =>
    rw [findFirstF] at hf
    cases hn : findFirstN p n with
    | some m0 =>
      rw [hn] at hf
      simp at hf
      subst hf
      rw [mapFirstEF, find_some_fixEN p g n m0 hn hfix]
    | none =>
      rw [hn] at hf
      rw [mapFirstEF, find_none_mapFirstEN p g n hn, find_some_fixEF p g fr m hf hfix]
termination_by sizeOf f
end

theorem existsNodeN_of_self (s : HNode → Bool) (r : HNode) (hr : s r = true) :
    existsNodeN s r = true := by
  cases r with
  | elem i nm ats cs => rw [existsNodeN]; simp [hr]
  | text i s2 => rw [existsNodeN]; exact hr
  | comment i s2 => rw [existsNodeN]; exact hr
  | doctype i s2 => rw [existsNodeN]; exact hr

mutual
theorem insAfterN_exists (q s : HNode → Bool) (r : HNode) (hr : s r = true)
    (n n2 : HNode) (h : insAfterN q r n = some n2) : existsNodeN s n2 = true := by
  cases n with
  | elem i nm ats cs =>
    cases hm : insAfterF q r cs with
    | none => rw [insAfterN, hm] at h; exact absurd h (by simp)
    | some cs2 =>
      rw [insAfterN, hm] at h
      simp at h
      subst h
      rw [existsNodeN]
      exact (Bool.or_eq_true _ _).mpr (.inr (insAfterF_exists q s r hr cs cs2 hm))
  | text i s2 => rw [insAfterN] at h; exact absurd h (by simp)
  | comment i s2 => rw [insAfterN] at h; exact absurd h (by simp)
  | doctype i s2 => rw [insAfterN] at h; exact absurd h (by simp)
termination_by sizeOf n

theorem insAfterF_exists (q s : HNode → Bool) (r : HNode) (hr : s r = true)
    (f f2 : HForest) (h : insAfterF q r f = some f2) : existsNodeF s f2 = true := by
  cases f with
  | nil => rw [insAfterF] at h; exact absurd h (by simp)
  | cons n fr =>
    rw [insAfterF] at h
    by_cases hq : q n
    · rw [if_pos hq] at h
      simp at h
      subst h
      rw [existsNodeF, existsNodeF]
      exact (Bool.or_eq_true _ _).mpr
        (.inr ((Bool.or_eq_true _ _).mpr (.inl (existsNodeN_of_self s r hr))))
    · rw [if_neg hq] at h
      cases hn : insAfterN q r n with
      | some nn =>
        rw [hn] at h
        simp at h
        subst h
        rw [existsNodeF]
        exact (Bool.or_eq_true _ _).mpr (.inl (insAfterN_exists q s r hr n nn hn))
      | none =>
        rw [hn] at h
        cases hf : insAfterF q r fr with
        | none => rw [hf] at h; exact absurd h (by simp)
        | some fr2 =>
          rw [hf] at h
          simp at h
          subst h
          rw [existsNodeF]
          exact (Bool.or_eq_true _ _).mpr (.inr (insAfterF_exists q s r hr fr fr2 hf))
termination_by sizeOf f
end

theorem append_exists (s : HNode → Bool) (r : HNode) (hr : s r = true) (f : HForest) :
    existsNodeF s (HForest.append f (.cons r .nil)) = true := by
  cases f with
  | nil =>
    rw [HForest.append, existsNodeF]
    exact (Bool.or_eq_true _ _).mpr (.inl (existsNodeN_of_self s r hr))
  | cons n fr =>
    rw [HForest.append, existsNodeF]
    exact (Bool.or_eq_true _ _).mpr (.inr (append_exists s r hr fr))
termination_by sizeOf f

theorem isRtlLink_newLink : isRtlLink newLink = true := by decide

theorem srcEqRtl_rtlScriptTag : srcEqRtl rtlScriptTag = true := by decide

theorem benign_not_html : ∀ r, benignNode r → isElemNamed (lc "html") r = false := by
  intro r hbn
  cases hbn with
  | inl h => subst h; decide
  | inr h => subst h; decide

theorem benign_not_head : ∀ r, benignNode r → isElemNamed (lc "head") r = false := by
  intro r hbn
  cases hbn with
  | inl h => subst h; decide
  | inr h => subst h; decide

theorem benign_not_body : ∀ r, benignNode r → isElemNamed (lc "body") r = false := by
  intro r hbn
  cases hbn with
  | inl h => subst h; decide
  | inr h => subst h; decide

theorem fHead_children (i : Option Nat) (nm : LC) (ats : List (LC × AttrVal)) (cs : HForest) :
    ∃ cs2, fHead (.elem i nm ats cs) = .elem i nm ats cs2 ∧
      existsNodeF isRtlLink cs2 = true := by
  by_cases hex : existsNodeF isRtlLink cs = true
  · refine ⟨cs, ?_, hex⟩
    rw [fHead, if_pos hex]
  · cases hins : insAfterF isStyleLink newLink cs with
    | some cs2 =>
      refine ⟨cs2, ?_, insAfterF_exists isStyleLink isRtlLink newLink isRtlLink_newLink cs cs2 hins⟩
      rw [fHead, if_neg hex, hins]
    | none =>
      refine ⟨cs.append (.cons newLink .nil), ?_, append_exists isRtlLink newLink isRtlLink_newLink cs⟩
      rw [fHead, if_neg hex, hins]

theorem fHead_fix (i : Option Nat) (nm : LC) (ats : List (LC × AttrVal)) (cs : HForest)
    (hex : existsNodeF isRtlLink cs = true) :
    fHead (.elem i nm ats cs) = .elem i nm ats cs := by
  rw [fHead, if_pos hex]

theorem simN_fHead (prot : LC → Prop) (n : HNode) : SimN prot n (fHead n) := by
  cases n with
  | elem i nm ats cs =>
    by_cases hex : existsNodeF isRtlLink cs = true
    · rw [fHead, if_pos hex]
      exact SimN.refl _
    · cases hins : insAfterF isStyleLink newLink cs with
      | some cs2 =>
        rw [fHead, if_neg hex, hins]
        exact SimN.elem i nm ats ats cs cs2
          (insAfterF_sim prot isStyleLink newLink (.inl rfl) cs cs2 hins) (fun _ => rfl)
      | none =>
        rw [fHead, if_neg hex, hins]
        exact SimN.elem i nm ats ats cs _ (SimF_appendOne prot newLink (.inl rfl) cs)
          (fun _ => rfl)
  | text i s2 => rw [fHead]; exact SimN.refl _
  | comment i s2 => rw [fHead]; exact SimN.refl _
  | doctype i s2 => rw [fHead]; exact SimN.refl _

theorem fBodyScript_children (i : Option Nat) (nm : LC) (ats : List (LC × AttrVal))
    (cs : HForest) :
    ∃ cs2, fBodyScript (.elem i nm ats cs) = .elem i nm ats cs2 ∧
      existsNodeF srcEqRtl cs2 = true := by
  by_cases hex : existsNodeF srcEqRtl cs = true
  · refine ⟨cs, ?_, hex⟩
    rw [fBodyScript, if_pos hex]
  · cases hins : insAfterF isMainScript rtlScriptTag cs with
    | some cs2 =>
      refine ⟨cs2, ?_,
        insAfterF_exists isMainScript srcEqRtl rtlScriptTag srcEqRtl_rtlScriptTag cs cs2 hins⟩
      rw [fBodyScript, if_neg hex, hins]
    | none =>
      refine ⟨cs.append (.cons rtlScriptTag .nil), ?_,
        append_exists srcEqRtl rtlScriptTag srcEqRtl_rtlScriptTag cs⟩
      rw [fBodyScript, if_neg hex, hins]

theorem fBodyScript_fix (i : Option Nat) (nm : LC) (ats : List (LC × AttrVal))
    (cs : HForest) (hex : existsNodeF srcEqRtl cs = true) :
    fBodyScript (.elem i nm ats cs) = .elem i nm ats cs := by
  rw [fBodyScript, if_pos hex]

theorem simN_fBodyScript (prot : LC → Prop) (n : HNode) : SimN prot n (fBodyScript n) := by
  cases n with
  | elem i nm ats cs =>
    by_cases hex : existsNodeF srcEqRtl cs = true
    · rw [fBodyScript, if_pos hex]
      exact SimN.refl _
    · cases hins : insAfterF isMainScript rtlScriptTag cs with
      | some cs2 =>
        rw [fBodyScript, if_neg hex, hins]
        exact SimN.elem i nm ats ats cs cs2
          (insAfterF_sim prot isMainScript rtlScriptTag (.inr rfl) cs cs2 hins) (fun _ => rfl)
      | none =>
        rw [fBodyScript, if_neg hex, hins]
        exact SimN.elem i nm ats ats cs _ (SimF_appendOne prot rtlScriptTag (.inr rfl) cs)
          (fun _ => rfl)
  | text i s2 => rw [fBodyScript]; exact SimN.refl _
  | comment i s2 => rw [fBodyScript]; exact SimN.refl _
  | doctype i s2 => rw [fBodyScript]; exact SimN.refl _

theorem fHtmlAttrs_conds (ats : List (LC × AttrVal)) :
    getAttr (setAttr (setAttr ats (lc "lang") (.str (lc "fa"))) (lc "dir")
      (.str (lc "rtl"))) (lc "lang") = some (.str (lc "fa")) ∧
    getAttr (setAttr (setAttr ats (lc "lang") (.str (lc "fa"))) (lc "dir")
      (.str (lc "rtl"))) (lc "dir") = some (.str (lc "rtl")) := by
  constructor
  · rw [getAttr_setAttr_other _ _ _ _ (by decide)]
    exact getAttr_setAttr_same _ _ _
  · exact getAttr_setAttr_same _ _ _

theorem fHtmlAttrs_fix (i : Option Nat) (nm : LC) (ats : List (LC × AttrVal)) (cs : HForest)
    (hl : getAttr ats (lc "lang") = some (.str (lc "fa")))
    (hd : getAttr ats (lc "dir") = some (.str (lc "rtl"))) :
    fHtmlAttrs (.elem i nm ats cs) = .elem i nm ats cs := by
  rw [fHtmlAttrs, setAttr_noop ats _ _ hl, setAttr_noop ats _ _ hd]

theorem simN_fHtmlAttrs (prot : LC → Prop) (hpr : ¬ prot (lc "html")) (n : HNode)
    (hn : isElemNamed (lc "html") n = true) : SimN prot n (fHtmlAttrs n) := by
  obtain ⟨i, ats, cs, rfl⟩ := isElemNamed_shape _ n hn
  rw [fHtmlAttrs]
  exact SimN.elem i (lc "html") ats _ cs cs (SimF_self prot cs) (fun hp => absurd hp hpr)

theorem fBodyAttrs_ok_shape (i : Option Nat) (nm : LC) (ats : List (LC × AttrVal))
    (cs : HForest)
    (hcl : getAttr ats (lc "class") = none ∨
      ∃ ls, getAttr ats (lc "class") = some (.lst ls)) :
    ∃ ats2, fBodyAttrs (.elem i nm ats cs) = .ok (.elem i nm ats2 cs) ∧
      getAttr ats2 (lc "dir") = some (.str (lc "rtl")) ∧
      ∃ ls2, getAttr ats2 (lc "class") = some (.lst ls2) ∧ lc "rtl-body" ∈ ls2 := by
  have hcd : (lc "class") ≠ (lc "dir") := by decide
  have hg : getAttr (setAttr ats (lc "dir") (.str (lc "rtl"))) (lc "class") =
      getAttr ats (lc "class") := getAttr_setAttr_other _ _ _ _ hcd
  rcases hcl with hnone | ⟨ls, hls⟩
  · refine ⟨setAttr (setAttr ats (lc "dir") (.str (lc "rtl"))) (lc "class")
      (.lst [lc "rtl-body"]), ?_, ?_, ?_⟩
    · simp only [fBodyAttrs, hg, hnone]
    · rw [getAttr_setAttr_other _ _ _ _ (Ne.symm hcd)]
      exact getAttr_setAttr_same _ _ _
    · exact ⟨[lc "rtl-body"], getAttr_setAttr_same _ _ _, by simp⟩
  · by_cases hmem : lc "rtl-body" ∈ ls
    · refine ⟨setAttr ats (lc "dir") (.str (lc "rtl")), ?_,
        getAttr_setAttr_same _ _ _, ls, ?_, hmem⟩
      · simp only [fBodyAttrs, hg, hls, if_pos hmem]
      · rw [hg]
        exact hls
    · refine ⟨setAttr (setAttr ats (lc "dir") (.str (lc "rtl"))) (lc "class")
        (.lst (ls ++ [lc "rtl-body"])), ?_, ?_, ?_⟩
      · simp only [fBodyAttrs, hg, hls, if_neg hmem]
      · rw [getAttr_setAttr_other _ _ _ _ (Ne.symm hcd)]
        exact getAttr_setAttr_same _ _ _
      · exact ⟨ls ++ [lc "rtl-body"], getAttr_setAttr_same _ _ _, by simp⟩

theorem fBodyAttrs_fix (i : Option Nat) (nm : LC) (ats : List (LC × AttrVal))
    (cs : HForest) (ls : List LC)
    (hdir : getAttr ats (lc "dir") = some (.str (lc "rtl")))
    (hcl : getAttr ats (lc "class") = some (.lst ls)) (hmem : lc "rtl-body" ∈ ls) :
    fBodyAttrs (.elem i nm ats cs) = .ok (.elem i nm ats cs) := by
  have hsn : setAttr ats (lc "dir") (.str (lc "rtl")) = ats := setAttr_noop _ _ _ hdir
  simp only [fBodyAttrs, hsn, hcl, if_pos hmem]

theorem fBodyAttrs_ok_inv (i : Option Nat) (nm : LC) (ats : List (LC × AttrVal))
    (cs : HForest) (n2 : HNode) (h : fBodyAttrs (.elem i nm ats cs) = .ok n2) :
    ∃ ats2, n2 = .elem i nm ats2 cs := by
  cases hg : getAttr (setAttr ats (lc "dir") (.str (lc "rtl"))) (lc "class") with
  | none =>
    simp only [fBodyAttrs, hg] at h
    exact ⟨_, (Except.ok.inj h).symm⟩
  | some v =>
    cases v with
    | lst ls =>
      by_cases hmem : lc "rtl-body" ∈ ls
      · simp only [fBodyAttrs, hg, if_pos hmem] at h
        exact ⟨_, (Except.ok.inj h).symm⟩
      · simp only [fBodyAttrs, hg, if_neg hmem] at h
        exact ⟨_, (Except.ok.inj h).symm⟩
    | str s =>
      by_cases hsub : containsSub (lc "rtl-body") s = true
      · simp only [fBodyAttrs, hg, if_pos hsub] at h
        exact ⟨_, (Except.ok.inj h).symm⟩
      · simp only [fBodyAttrs, hg, if_neg hsub] at h
        exact absurd h (by simp)

theorem simN_fBodyAttrs (prot : LC → Prop) (hpr : ¬ prot (lc "body")) (n n2 : HNode)
    (hn : isElemNamed (lc "body") n = true) (h : fBodyAttrs n = .ok n2) :
    SimN prot n n2 := by
  obtain ⟨i, ats, cs, rfl⟩ := isElemNamed_shape _ n hn
  obtain ⟨ats2, rfl⟩ := fBodyAttrs_ok_inv i _ ats cs n2 h
  exact SimN.elem i (lc "body") ats ats2 cs cs (SimF_self prot cs)
    (fun hp => absurd hp hpr)

/-! ### C5: the adjusted-document invariants and their transport -/

/-- After adjustment the html element (if found) carries lang=fa and dir=rtl. -/
def PHtmlP (d : HForest) : Prop :=
  ∀ n, findFirstF (isElemNamed (lc "html")) d = some n →
    ∃ i ats cs, n = HNode.elem i (lc "html") ats cs ∧
      getAttr ats (lc "lang") = some (.str (lc "fa")) ∧
      getAttr ats (lc "dir") = some (.str (lc "rtl"))

/-- After adjustment the body element (if found) carries dir=rtl and a
multi-valued class containing rtl-body. -/
def PBodyP (d : HForest) : Prop :=
  ∀ n, findFirstF (isElemNamed (lc "body")) d = some n →
    ∃ i ats cs, n = HNode.elem i (lc "body") ats cs ∧
      getAttr ats (lc "dir") = some (.str (lc "rtl")) ∧
      ∃ ls, getAttr ats (lc "class") = some (.lst ls) ∧ lc "rtl-body" ∈ ls

/-- After adjustment the head element (if found) contains an rtl stylesheet link. -/
def PHeadP (d : HForest) : Prop :=
  ∀ n, findFirstF (isElemNamed (lc "head")) d = some n →
    ∃ i ats cs, n = HNode.elem i (lc "head") ats cs ∧ existsNodeF isRtlLink cs = true

/-- After adjustment the body element (if found) contains the rtl script tag. -/
def PScriptP (d : HForest) : Prop :=
  ∀ n, findFirstF (isElemNamed (lc "body")) d = some n →
    ∃ i ats cs, n = HNode.elem i (lc "body") ats cs ∧ existsNodeF srcEqRtl cs = true

/-- Decidable guard of the C5 theorem: the body element, when present, has no
string-valued class attribute (on a parsed document bs4 always reports class
as multi-valued, so this holds for every parsed tree). -/
def bodyClassOkB (d : HForest) : Bool :=
  match findFirstF (isElemNamed (lc "body")) d with
  | none => true
  | some n =>
    match nodeAttr n (lc "class") with
    | none => true
    | some (.lst _) => true
    | some (.str _) => false

theorem sim_elem_attr_trans (prot : LC → Prop) (nm0 : LC) (hprot : prot nm0)
    (hb : ∀ r, benignNode r → isElemNamed nm0 r = false)
    (A : List (LC × AttrVal) → Prop)
    (d d2 : HForest) (hsim : SimF prot d d2)
    (hP : ∀ n, findFirstF (isElemNamed nm0) d = some n →
      ∃ i ats cs, n = HNode.elem i nm0 ats cs ∧ A ats) :
    ∀ n2, findFirstF (isElemNamed nm0) d2 = some n2 →
      ∃ i ats cs2, n2 = HNode.elem i nm0 ats cs2 ∧ A ats := by
  intro n2 hfind2
  cases hfd : findFirstF (isElemNamed nm0) d with
  | none =>
    have hn2 := (simF_find_trans prot nm0 hb d d2 hsim).1 hfd
    rw [hn2] at hfind2
    exact absurd hfind2 (by simp)
  | some m =>
    obtain ⟨m2, hm2, hsimN⟩ := (simF_find_trans prot nm0 hb d d2 hsim).2 m hfd
    rw [hm2] at hfind2
    obtain rfl : m2 = n2 := Option.some.inj hfind2
    obtain ⟨i, ats, cs, hshape, hA⟩ := hP m hfd
    obtain ⟨cs2, hshape2, _⟩ := simN_elem_eq prot m m2 hsimN i nm0 ats cs hshape hprot
    exact ⟨i, ats, cs2, hshape2, hA⟩

theorem sim_elem_exists_trans (nm0 : LC)
    (hb : ∀ r, benignNode r → isElemNamed nm0 r = false)
    (s : HNode → Bool)
    (hs : ∀ i nm ats cs cs2, s (.elem i nm ats cs) = s (.elem i nm ats cs2))
    (d d2 : HForest) (hsim : SimF (fun _ => True) d d2)
    (hP : ∀ n, findFirstF (isElemNamed nm0) d = some n →
      ∃ i ats cs, n = HNode.elem i nm0 ats cs ∧ existsNodeF s cs = true) :
    ∀ n2, findFirstF (isElemNamed nm0) d2 = some n2 →
      ∃ i ats cs2, n2 = HNode.elem i nm0 ats cs2 ∧ existsNodeF s cs2 = true := by
  intro n2 hfind2
  cases hfd : findFirstF (isElemNamed nm0) d with
  | none =>
    have hn2 := (simF_find_trans (fun _ => True) nm0 hb d d2 hsim).1 hfd
    rw [hn2] at hfind2
    exact absurd hfind2 (by simp)
  | some m =>
    obtain ⟨m2, hm2, hsimN⟩ := (simF_find_trans (fun _ => True) nm0 hb d d2 hsim).2 m hfd
    rw [hm2] at hfind2
    obtain rfl : m2 = n2 := Option.some.inj hfind2
    obtain ⟨i, ats, cs, hshape, hx⟩ := hP m hfd
    obtain ⟨cs2, hshape2, hsimCs⟩ :=
      simN_elem_eq (fun _ => True) m m2 hsimN i nm0 ats cs hshape trivial
    exact ⟨i, ats, cs2, hshape2, simF_exists_all s hs cs cs2 hsimCs hx⟩

theorem htmlPhase_sim (prot : LC → Prop) (hpr : ¬ prot (lc "html")) (doc : HForest) :
    SimF prot doc (htmlPhase doc) := by
  cases hm : mapFirstF (isElemNamed (lc "html")) fHtmlAttrs doc with
  | none =>
    have hd : htmlPhase doc = doc := by simp only [htmlPhase, hm]
    rw [hd]
    exact SimF_self prot doc
  | some d2 =>
    have hd : htmlPhase doc = d2 := by simp only [htmlPhase, hm]
    rw [hd]
    exact mapFirstF_sim prot _ _ (fun m hm2 => simN_fHtmlAttrs prot hpr m hm2) doc d2 hm

theorem htmlPhase_PHtml (doc : HForest) : PHtmlP (htmlPhase doc) := by
  intro n hfind
  cases hm : mapFirstF (isElemNamed (lc "html")) fHtmlAttrs doc with
  | none =>
    have hd : htmlPhase doc = doc := by simp only [htmlPhase, hm]
    rw [hd] at hfind
    rw [mapFirstF_none_find_none _ _ doc hm] at hfind
    exact absurd hfind (by simp)
  | some d2 =>
    have hd : htmlPhase doc = d2 := by simp only [htmlPhase, hm]
    rw [hd] at hfind
    obtain ⟨m, hfm, hfg⟩ := mapFirstF_est (isElemNamed (lc "html")) fHtmlAttrs
      (fun eid nm ats cs cs2 => rfl)
      (fun m hm2 => by
        obtain ⟨i, ats, cs, rfl⟩ := isElemNamed_shape _ m hm2
        rw [fHtmlAttrs]
        exact hm2) doc d2 hm
    rw [hfg] at hfind
    obtain rfl : fHtmlAttrs m = n := Option.some.inj hfind
    obtain ⟨i, ats, cs, rfl⟩ := isElemNamed_shape _ m (findFirstF_some_p _ doc m hfm)
    rw [fHtmlAttrs]
    exact ⟨i, _, cs, rfl, fHtmlAttrs_conds ats⟩

theorem bodyPhase_ok (d1 : HForest)
    (hco : ∀ n, findFirstF (isElemNamed (lc "body")) d1 = some n →
      ∃ i ats cs, n = HNode.elem i (lc "body") ats cs ∧
        (getAttr ats (lc "class") = none ∨
          ∃ ls, getAttr ats (lc "class") = some (.lst ls))) :
    ∃ d2, bodyPhase d1 = .ok d2 ∧ PBodyP d2 ∧
      SimF (fun nm => nm ≠ lc "body") d1 d2 := by
  cases hfd : findFirstF (isElemNamed (lc "body")) d1 with
  | none =>
    refine ⟨d1, ?_, ?_, SimF_self _ d1⟩
    · simp only [bodyPhase, find_none_mapFirstEF _ fBodyAttrs d1 hfd]
    · intro n hfind
      rw [hfd] at hfind
      exact absurd hfind (by simp)
  | some m =>
    obtain ⟨i, ats, cs, hshape, hcl⟩ := hco m hfd
    obtain ⟨ats2, hok, hdir2, hcls2⟩ := fBodyAttrs_ok_shape i (lc "body") ats cs hcl
    cases hmap : mapFirstEF (isElemNamed (lc "body")) fBodyAttrs d1 with
    | error e =>
      obtain ⟨m0, hfm0, hg0⟩ := mapFirstEF_err _ fBodyAttrs d1 e hmap
      rw [hfd] at hfm0
      obtain rfl : m = m0 := Option.some.inj hfm0
      rw [hshape, hok] at hg0
      exact absurd hg0 (by simp)
    | ok od =>
      cases od with
      | none =>
        rw [mapFirstEF_ok_none_find_none _ fBodyAttrs d1 hmap] at hfd
        exact absurd hfd (by simp)
      | some d2 =>
        refine ⟨d2, ?_, ?_, ?_⟩
        · simp only [bodyPhase, hmap]
        · intro n hfind
          obtain ⟨m0, m2, hfm0, hg0, hf2⟩ := mapFirstEF_est (isElemNamed (lc "body")) fBodyAttrs
            (fun eid nm ats0 cs0 cs02 => rfl)
            (fun m0 m2 hp0 hg0 => by
              obtain ⟨i0, ats0, cs0, rfl⟩ := isElemNamed_shape _ m0 hp0
              obtain ⟨ats02, rfl⟩ := fBodyAttrs_ok_inv i0 _ ats0 cs0 m2 hg0
              exact hp0) d1 d2 hmap
          rw [hfd] at hfm0
          obtain rfl : m = m0 := Option.some.inj hfm0
          rw [hshape, hok] at hg0
          obtain rfl : HNode.elem i (lc "body") ats2 cs = m2 := Except.ok.inj hg0
          rw [hf2] at hfind
          obtain rfl : HNode.elem i (lc "body") ats2 cs = n := Option.some.inj hfind
          exact ⟨i, ats2, cs, rfl, hdir2, hcls2⟩
        · exact mapFirstEF_sim _ _ fBodyAttrs
            (fun m0 m2 hp0 hg0 => simN_fBodyAttrs _ (by simp) m0 m2 hp0 hg0)
            d1 d2 hmap

theorem stylesheet_sim (doc : HForest) :
    SimF (fun _ => True) doc (ensure_rtl_stylesheet doc) := by
  cases hm : mapFirstF (isElemNamed (lc "head")) fHead doc with
  | none =>
    have hd : ensure_rtl_stylesheet doc = doc := by simp only [ensure_rtl_stylesheet, hm]
    rw [hd]
    exact SimF_self _ doc
  | some d2 =>
    have hd : ensure_rtl_stylesheet doc = d2 := by simp only [ensure_rtl_stylesheet, hm]
    rw [hd]
    exact mapFirstF_sim _ _ fHead (fun m _ => simN_fHead _ m) doc d2 hm

theorem stylesheet_PHead (doc : HForest) : PHeadP (ensure_rtl_stylesheet doc) := by
  intro n hfind
  cases hm : mapFirstF (isElemNamed (lc "head")) fHead doc with
  | none =>
    have hd : ensure_rtl_stylesheet doc = doc := by simp only [ensure_rtl_stylesheet, hm]
    rw [hd] at hfind
    rw [mapFirstF_none_find_none _ fHead doc hm] at hfind
    exact absurd hfind (by simp)
  | some d2 =>
    have hd : ensure_rtl_stylesheet doc = d2 := by simp only [ensure_rtl_stylesheet, hm]
    rw [hd] at hfind
    obtain ⟨m, hfm, hfg⟩ := mapFirstF_est (isElemNamed (lc "head")) fHead
      (fun eid nm ats cs cs2 => rfl)
      (fun m hm2 => by
        obtain ⟨i, ats, cs, rfl⟩ := isElemNamed_shape _ m hm2
        obtain ⟨cs2, heq, _⟩ := fHead_children i (lc "head") ats cs
        rw [heq]
        exact hm2) doc d2 hm
    rw [hfg] at hfind
    obtain rfl : fHead m = n := Option.some.inj hfind
    obtain ⟨i, ats, cs, rfl⟩ := isElemNamed_shape _ m (findFirstF_some_p _ doc m hfm)
    obtain ⟨cs2, heq, hex⟩ := fHead_children i (lc "head") ats cs
    rw [heq]
    exact ⟨i, ats, cs2, rfl, hex⟩

theorem script_sim (doc : HForest) :
    SimF (fun _ => True) doc (ensure_rtl_script doc) := by
  cases hm : mapFirstF (isElemNamed (lc "body")) fBodyScript doc with
  | none =>
    have hd : ensure_rtl_script doc = doc := by simp only [ensure_rtl_script, hm]
    rw [hd]
    exact SimF_self _ doc
  | some d2 =>
    have hd : ensure_rtl_script doc = d2 := by simp only [ensure_rtl_script, hm]
    rw [hd]
    exact mapFirstF_sim _ _ fBodyScript (fun m _ => simN_fBodyScript _ m) doc d2 hm

theorem script_PScript (doc : HForest) : PScriptP (ensure_rtl_script doc) := by
  intro n hfind
  cases hm : mapFirstF (isElemNamed (lc "body")) fBodyScript doc with
  | none =>
    have hd : ensure_rtl_script doc = doc := by simp only [ensure_rtl_script, hm]
    rw [hd] at hfind
    rw [mapFirstF_none_find_none _ fBodyScript doc hm] at hfind
    exact absurd hfind (by simp)
  | some d2 =>
    have hd : ensure_rtl_script doc = d2 := by simp only [ensure_rtl_script, hm]
    rw [hd] at hfind
    obtain ⟨m, hfm, hfg⟩ := mapFirstF_est (isElemNamed (lc "body")) fBodyScript
      (fun eid nm ats cs cs2 => rfl)
      (fun m hm2 => by
        obtain ⟨i, ats, cs, rfl⟩ := isElemNamed_shape _ m hm2
        obtain ⟨cs2, heq, _⟩ := fBodyScript_children i (lc "body") ats cs
        rw [heq]
        exact hm2) doc d2 hm
    rw [hfg] at hfind
    obtain rfl : fBodyScript m = n := Option.some.inj hfind
    obtain ⟨i, ats, cs, rfl⟩ := isElemNamed_shape _ m (findFirstF_some_p _ doc m hfm)
    obtain ⟨cs2, heq, hex⟩ := fBodyScript_children i (lc "body") ats cs
    rw [heq]
    exact ⟨i, ats, cs2, rfl, hex⟩

theorem htmlPhase_fix (d : HForest) (hP : PHtmlP d) : htmlPhase d = d := by
  cases hfd : findFirstF (isElemNamed (lc "html")) d with
  | none => simp only [htmlPhase, find_none_mapFirstF _ fHtmlAttrs d hfd]
  | some m =>
    obtain ⟨i, ats, cs, rfl, hl, hdd⟩ := hP m hfd
    simp only [htmlPhase,
      find_some_fixF _ fHtmlAttrs d _ hfd (fHtmlAttrs_fix i _ ats cs hl hdd)]

theorem bodyPhase_fix (d : HForest) (hP : PBodyP d) : bodyPhase d = .ok d := by
  cases hfd : findFirstF (isElemNamed (lc "body")) d with
  | none => simp only [bodyPhase, find_none_mapFirstEF _ fBodyAttrs d hfd]
  | some m =>
    obtain ⟨i, ats, cs, rfl, hdir, ls, hcl, hmem⟩ := hP m hfd
    simp only [bodyPhase,
      find_some_fixEF _ fBodyAttrs d _ hfd (fBodyAttrs_fix i _ ats cs ls hdir hcl hmem)]

theorem stylesheet_fix (d : HForest) (hP : PHeadP d) : ensure_rtl_stylesheet d = d := by
  cases hfd : findFirstF (isElemNamed (lc "head")) d with
  | none => simp only [ensure_rtl_stylesheet, find_none_mapFirstF _ fHead d hfd]
  | some m =>
    obtain ⟨i, ats, cs, rfl, hex⟩ := hP m hfd
    simp only [ensure_rtl_stylesheet,
      find_some_fixF _ fHead d _ hfd (fHead_fix i _ ats cs hex)]

theorem script_fix (d : HForest) (hP : PScriptP d) : ensure_rtl_script d = d := by
  cases hfd : findFirstF (isElemNamed (lc "body")) d with
  | none => simp only [ensure_rtl_script, find_none_mapFirstF _ fBodyScript d hfd]
  | some m =>
    obtain ⟨i, ats, cs, rfl, hex⟩ := hP m hfd
    simp only [ensure_rtl_script,
      find_some_fixF _ fBodyScript d _ hfd (fBodyScript_fix i _ ats cs hex)]

/-- C5: on every parsed document (where the body's class attribute, if any, is
multi-valued, as bs4 guarantees for parsed trees — captured by `bodyClassOkB`),
the RTL adjustment sequence (`ensure_rtl_attributes`, then
`ensure_rtl_stylesheet`, then `ensure_rtl_script`) succeeds, and running it a
second time returns the once-adjusted document unchanged: no duplicate rtl
stylesheet link, no duplicate rtl script tag, no duplicate rtl-body class entry,
and existing classes preserved. -/
theorem rtl_adjust_idem (doc : HForest) (hclass : bodyClassOkB doc = true) :
    ∃ d, adjustDoc doc = .ok d ∧ adjustDoc d = .ok d := by
  have hcoP : ∀ n, findFirstF (isElemNamed (lc "body")) doc = some n →
      ∃ i ats cs, n = HNode.elem i (lc "body") ats cs ∧
        (getAttr ats (lc "class") = none ∨
          ∃ ls, getAttr ats (lc "class") = some (.lst ls)) := by
    intro n hfd
    obtain ⟨i, ats, cs, rfl⟩ := isElemNamed_shape _ n (findFirstF_some_p _ doc n hfd)
    refine ⟨i, ats, cs, rfl, ?_⟩
    unfold bodyClassOkB at hclass
    rw [hfd] at hclass
    simp only [nodeAttr] at hclass
    cases hg : getAttr ats (lc "class") with
    | none => exact .inl rfl
    | some v =>
      cases v with
      | lst ls => exact .inr ⟨ls, rfl⟩
      | str s =>
        simp only [hg] at hclass
        exact absurd hclass (by simp)
  have hsim1 : SimF (fun nm => nm ≠ lc "html") doc (htmlPhase doc) :=
    htmlPhase_sim _ (by simp) doc
  have hP1 : PHtmlP (htmlPhase doc) := htmlPhase_PHtml doc
  have hco1 := sim_elem_attr_trans (fun nm => nm ≠ lc "html") (lc "body") (by decide)
    benign_not_body
    (fun ats => getAttr ats (lc "class") = none ∨
      ∃ ls, getAttr ats (lc "class") = some (.lst ls))
    doc (htmlPhase doc) hsim1 hcoP
  obtain ⟨d2, hb2, hPB2, hsim2⟩ := bodyPhase_ok (htmlPhase doc) hco1
  have hPH2 : PHtmlP d2 := fun n2 h2 =>
    sim_elem_attr_trans (fun nm => nm ≠ lc "body") (lc "html") (by decide)
      benign_not_html
      (fun ats => getAttr ats (lc "lang") = some (.str (lc "fa")) ∧
        getAttr ats (lc "dir") = some (.str (lc "rtl")))
      (htmlPhase doc) d2 hsim2 hP1 n2 h2
  have hsim3 : SimF (fun _ => True) d2 (ensure_rtl_stylesheet d2) := stylesheet_sim d2
  have hPh3 : PHeadP (ensure_rtl_stylesheet d2) := stylesheet_PHead d2
  have hPH3 : PHtmlP (ensure_rtl_stylesheet d2) := fun n2 h2 =>
    sim_elem_attr_trans (fun _ => True) (lc "html") trivial benign_not_html
      (fun ats => getAttr ats (lc "lang") = some (.str (lc "fa")) ∧
        getAttr ats (lc "dir") = some (.str (lc "rtl")))
      d2 (ensure_rtl_stylesheet d2) hsim3 hPH2 n2 h2
  have hPB3 : PBodyP (ensure_rtl_stylesheet d2) := fun n2 h2 =>
    sim_elem_attr_trans (fun _ => True) (lc "body") trivial benign_not_body
      (fun ats => getAttr ats (lc "dir") = some (.str (lc "rtl")) ∧
        ∃ ls, getAttr ats (lc "class") = some (.lst ls) ∧ lc "rtl-body" ∈ ls)
      d2 (ensure_rtl_stylesheet d2) hsim3 hPB2 n2 h2
  have hsim4 : SimF (fun _ => True) (ensure_rtl_stylesheet d2)
      (ensure_rtl_script (ensure_rtl_stylesheet d2)) := script_sim _
  have hPS4 : PScriptP (ensure_rtl_script (ensure_rtl_stylesheet d2)) := script_PScript _
  have hPH4 : PHtmlP (ensure_rtl_script (ensure_rtl_stylesheet d2)) := fun n2 h2 =>
    sim_elem_attr_trans (fun _ => True) (lc "html") trivial benign_not_html
      (fun ats => getAttr ats (lc "lang") = some (.str (lc "fa")) ∧
        getAttr ats (lc "dir") = some (.str (lc "rtl")))
      (ensure_rtl_stylesheet d2) (ensure_rtl_script (ensure_rtl_stylesheet d2))
      hsim4 hPH3 n2 h2
  have hPB4 : PBodyP (ensure_rtl_script (ensure_rtl_stylesheet d2)) := fun n2 h2 =>
    sim_elem_attr_trans (fun _ => True) (lc "body") trivial benign_not_body
      (fun ats => getAttr ats (lc "dir") = some (.str (lc "rtl")) ∧
        ∃ ls, getAttr ats (lc "class") = some (.lst ls) ∧ lc "rtl-body" ∈ ls)
      (ensure_rtl_stylesheet d2) (ensure_rtl_script (ensure_rtl_stylesheet d2))
      hsim4 hPB3 n2 h2
  have hPh4 : PHeadP (ensure_rtl_script (ensure_rtl_stylesheet d2)) := fun n2 h2 =>
    sim_elem_exists_trans (lc "head") benign_not_head isRtlLink
      (fun i nm ats cs cs2 => rfl)
      (ensure_rtl_stylesheet d2) (ensure_rtl_script (ensure_rtl_stylesheet d2))
      hsim4 hPh3 n2 h2
  refine ⟨ensure_rtl_script (ensure_rtl_stylesheet d2), ?_, ?_⟩
  · have he : ensure_rtl_attributes doc = .ok d2 := hb2
    simp only [adjustDoc, he]
  · have he2 : ensure_rtl_attributes (ensure_rtl_script (ensure_rtl_stylesheet d2)) =
        .ok (ensure_rtl_script (ensure_rtl_stylesheet d2)) := by
      unfold ensure_rtl_attributes
      rw [htmlPhase_fix _ hPH4]
      exact bodyPhase_fix _ hPB4
    simp only [adjustDoc, he2]
    rw [stylesheet_fix _ hPh4, script_fix _ hPS4]

/-- Witness: the example document satisfies the parsed-class guard and the C5
idempotence conclusion holds on it. -/
theorem rtl_adjust_idem_witness :
    bodyClassOkB exampleDoc = true ∧
    ∃ d, adjustDoc exampleDoc = .ok d ∧ adjustDoc d = .ok d :=
  ⟨by decide, rtl_adjust_idem exampleDoc (by decide)⟩

/-! ## Orchestrator (`main`, lines 186-202)

`pathlib.PurePath.suffix` of a file name: with `i = name.rfind(".")`, the
suffix is `name[i:]` when `0 < i < len(name) - 1` and empty otherwise; the
stem is the name with the suffix removed.  The characters after the last dot
are, on the reversed name, exactly `takeWhile (fun c => c ≠ dot)`. -/

def pathSuffix (s : LC) : LC :=
  if (s.reverse.takeWhile (fun c => c ≠ '.')).length = s.length then []
  else if (s.reverse.takeWhile (fun c => c ≠ '.')).length = 0 then []
  else if (s.reverse.takeWhile (fun c => c ≠ '.')).length = s.length - 1 then []
  else '.' :: (s.reverse.takeWhile (fun c => c ≠ '.')).reverse

def pathStem (s : LC) : LC := s.take (s.length - (pathSuffix s).length)

/-- `html_file.with_name(f"{html_file.stem}-fa{html_file.suffix}")`. -/
def outName (s : LC) : LC := pathStem s ++ lc "-fa" ++ pathSuffix s

/-- Discovery over the directory listing (name, is_file):
`path for path in HTML_DIR.glob("*.html") if not path.stem.endswith("-fa") and path.is_file()`.
`glob("*.html")` keeps the names ending in ".html"; the surrounding `sorted`
only permutes the result, so membership is unaffected. -/
def discover (entries : List (LC × Bool)) : List LC :=
  (entries.filter (fun e => e.2 && List.isSuffixOf (lc ".html") e.1 &&
    !(List.isSuffixOf (lc "-fa") (pathStem e.1)))).map (fun e => e.1)

/-- Per-document body of the `main` loop before the file write: adjust,
extract, translate and reinject. -/
def processDoc (remote : LC → Except Err LC) (st : CState) (doc : HForest) :
    Except Err (HForest × CState) :=
  match adjustDoc doc with
  | .error e => .error e
  | .ok d1 =>
    match collect_entries d1 with
    | .error e => .error e
    | .ok es => translate_texts remote st es d1

/-- The `main` loop over the discovered documents, sharing one client state:
returns the names written (`fa_file.write_text` runs only after the whole
document translated) and the terminal error, if any, that aborted the run. -/
def runFiles (remote : LC → Except Err LC) (st : CState) :
    List (LC × HForest) → List LC × Option Err
  | [] => ([], none)
  | (nm, doc) :: rest =>
    match processDoc remote st doc with
    | .error e => ([], some e)
    | .ok (_, st2) =>
      match runFiles remote st2 rest with
      | (ws, err) => (outName nm :: ws, err)

/-! ### C9: discovery and output naming -/

theorem pathSuffix_html (s : LC) (hs : s ≠ []) :
    pathSuffix (s ++ lc ".html") = lc ".html" := by
  have hrev : (s ++ lc ".html").reverse = lc "lmth." ++ s.reverse := by
    rw [List.reverse_append]
    have h1 : (lc ".html").reverse = lc "lmth." := by decide
    rw [h1]
  have htw : ((s ++ lc ".html").reverse.takeWhile (fun c => c ≠ '.')) = lc "lmth" := by
    rw [hrev, takeWhile_append_stop _ _ _ (by decide)]
    decide
  have hlen : (s ++ lc ".html").length = s.length + 5 := by
    rw [List.length_append]
    rfl
  have hsl : s.length ≠ 0 := fun h0 => hs (List.length_eq_zero.mp h0)
  have hl4 : (lc "lmth").length = 4 := by decide
  unfold pathSuffix
  rw [htw, hlen, hl4]
  rw [if_neg (by omega), if_neg (by omega), if_neg (by omega)]
  decide

theorem pathStem_html (s : LC) (hs : s ≠ []) : pathStem (s ++ lc ".html") = s := by
  unfold pathStem
  rw [pathSuffix_html s hs]
  have hlen : (s ++ lc ".html").length - (lc ".html").length = s.length := by
    rw [List.length_append]
    omega
  rw [hlen]
  exact List.take_left s (lc ".html")

/-- C9: discovery selects exactly the directory entries that are files, end in
".html" and whose stem does not already end in the "-fa" suffix; and for a
standard name stem++".html" (nonempty stem) the output path is
stem++"-fa.html", i.e. the "-fa" suffix is inserted before the extension. -/
theorem discover_naming_spec (entries : List (LC × Bool)) (nm s : LC) (hs : s ≠ []) :
    (nm ∈ discover entries ↔
      ((nm, true) ∈ entries ∧ List.isSuffixOf (lc ".html") nm = true ∧
        List.isSuffixOf (lc "-fa") (pathStem nm) = false)) ∧
    outName (s ++ lc ".html") = s ++ lc "-fa.html" := by
  constructor
  · constructor
    · intro h
      simp only [discover, List.mem_map] at h
      obtain ⟨e, he, rfl⟩ := h
      rw [List.mem_filter] at he
      obtain ⟨hmem, hq⟩ := he
      simp only [Bool.and_eq_true, Bool.not_eq_true'] at hq
      obtain ⟨⟨hb, hsuf⟩, hfa⟩ := hq
      have heq : e = (e.1, true) := by
        obtain ⟨e1, e2⟩ := e
        simp only at hb
        rw [hb]
      refine ⟨?_, hsuf, hfa⟩
      rw [← heq]
      exact hmem
    · intro h
      obtain ⟨hmem, hsuf, hfa⟩ := h
      simp only [discover, List.mem_map]
      refine ⟨(nm, true), ?_, rfl⟩
      rw [List.mem_filter]
      refine ⟨hmem, ?_⟩
      simp only [Bool.and_eq_true, Bool.not_eq_true']
      exact ⟨⟨trivial, hsuf⟩, hfa⟩
  · unfold outName
    rw [pathSuffix_html s hs, pathStem_html s hs]
    rw [List.append_assoc]
    rfl

/-- Witness: a three-entry directory with an already-localized page and a
non-HTML file, and the stem "page". -/
theorem discover_naming_spec_witness :
    (lc "page") ≠ [] ∧
    ((lc "index.html" ∈ discover
        [(lc "index.html", true), (lc "index-fa.html", true), (lc "notes.md", true)] ↔
      ((lc "index.html", true) ∈
          [(lc "index.html", true), (lc "index-fa.html", true), (lc "notes.md", true)] ∧
        List.isSuffixOf (lc ".html") (lc "index.html") = true ∧
        List.isSuffixOf (lc "-fa") (pathStem (lc "index.html")) = false)) ∧
      outName (lc "page" ++ lc ".html") = lc "page" ++ lc "-fa.html") :=
  ⟨by decide,
    discover_naming_spec
      [(lc "index.html", true), (lc "index-fa.html", true), (lc "notes.md", true)]
      (lc "index.html") (lc "page") (by decide)⟩

/-! ### C8: a retry-exhaustion abort writes no output for the failing document -/

theorem fBodyAttrs_error_shape (n : HNode) (e : Err) (h : fBodyAttrs n = .error e) :
    e = .attributeError := by
  cases n with
  | elem i nm ats cs =>
    cases hg : getAttr (setAttr ats (lc "dir") (.str (lc "rtl"))) (lc "class") with
    | none =>
      simp only [fBodyAttrs, hg] at h
      exact absurd h (by simp)
    | some v =>
      cases v with
      | lst ls =>
        by_cases hmem : lc "rtl-body" ∈ ls
        · simp only [fBodyAttrs, hg, if_pos hmem] at h
          exact absurd h (by simp)
        · simp only [fBodyAttrs, hg, if_neg hmem] at h
          exact absurd h (by simp)
      | str s =>
        by_cases hsub : containsSub (lc "rtl-body") s = true
        · simp only [fBodyAttrs, hg, if_pos hsub] at h
          exact absurd h (by simp)
        · simp only [fBodyAttrs, hg, if_neg hsub] at h
          exact (Except.error.inj h).symm
  | text i s =>
    simp only [fBodyAttrs] at h
    exact absurd h (by simp)
  | comment i s =>
    simp only [fBodyAttrs] at h
    exact absurd h (by simp)
  | doctype i s =>
    simp only [fBodyAttrs] at h
    exact absurd h (by simp)

theorem bodyPhase_error_shape (d : HForest) (e : Err) (h : bodyPhase d = .error e) :
    e = .attributeError := by
  cases hm : mapFirstEF (isElemNamed (lc "body")) fBodyAttrs d with
  | error e2 =>
    simp only [bodyPhase, hm] at h
    obtain rfl : e2 = e := Except.error.inj h
    obtain ⟨m, _, hg⟩ := mapFirstEF_err _ fBodyAttrs d e2 hm
    exact fBodyAttrs_error_shape m e2 hg
  | ok od =>
    cases od with
    | none =>
      simp only [bodyPhase, hm] at h
      exact absurd h (by simp)
    | some d2 =>
      simp only [bodyPhase, hm] at h
      exact absurd h (by simp)

theorem adjustDoc_error_shape (doc : HForest) (e : Err) (h : adjustDoc doc = .error e) :
    e = .attributeError := by
  cases ha : ensure_rtl_attributes doc with
  | error e2 =>
    simp only [adjustDoc, ha] at h
    obtain rfl : e2 = e := Except.error.inj h
    exact bodyPhase_error_shape (htmlPhase doc) e2 ha
  | ok d1 =>
    simp only [adjustDoc, ha] at h
    exact absurd h (by simp)

theorem attrEntryOf_error_shape (i : Option Nat) (a : LC) (v : AttrVal) (e : Err)
    (h : attrEntryOf i a v = .error e) : e = .attributeError := by
  cases v with
  | str s =>
    simp only [attrEntryOf] at h
    split at h
    · exact absurd h (by simp)
    · split at h
      · exact absurd h (by simp)
      · exact absurd h (by simp)
  | lst ls =>
    simp only [attrEntryOf] at h
    split at h
    · exact absurd h (by simp)
    · exact (Except.error.inj h).symm

mutual
theorem collectAttrN_error_shape (a : LC) (n : HNode) (e : Err)
    (h : collectAttrN a n = .error e) : e = .attributeError := by
  cases n with
  | elem i nm ats cs =>
    cases hg : getAttr ats a with
    | none =>
      simp only [collectAttrN, hg] at h
      exact collectAttrF_error_shape a cs e h
    | some v =>
      cases hae : attrEntryOf i a v with
      | error e2 =>
        simp only [collectAttrN, hg, hae] at h
        obtain rfl : e2 = e := Except.error.inj h
        exact attrEntryOf_error_shape i a v e2 hae
      | ok es1 =>
        cases hcf : collectAttrF a cs with
        | error e2 =>
          simp only [collectAttrN, hg, hae, hcf] at h
          obtain rfl : e2 = e := Except.error.inj h
          exact collectAttrF_error_shape a cs e2 hcf
        | ok es2 =>
          simp only [collectAttrN, hg, hae, hcf] at h
          exact absurd h (by simp)
  | text i s =>
    simp only [collectAttrN] at h
    exact absurd h (by simp)
  | comment i s =>
    simp only [collectAttrN] at h
    exact absurd h (by simp)
  | doctype i s =>
    simp only [collectAttrN] at h
    exact absurd h (by simp)
termination_by sizeOf n

theorem collectAttrF_error_shape (a : LC) (f : HForest) (e : Err)
    (h : collectAttrF a f = .error e) : e = .attributeError := by
  cases f with
  | nil =>
    simp only [collectAttrF] at h
    exact absurd h (by simp)
  | cons n fr =>
    cases hn : collectAttrN a n with
    | error e2 =>
      simp only [collectAttrF, hn] at h
      obtain rfl : e2 = e := Except.error.inj h
      exact collectAttrN_error_shape a n e2 hn
    | ok es1 =>
      cases hf : collectAttrF a fr with
      | error e2 =>
        simp only [collectAttrF, hn, hf] at h
        obtain rfl : e2 = e := Except.error.inj h
        exact collectAttrF_error_shape a fr e2 hf
      | ok es2 =>
        simp only [collectAttrF, hn, hf] at h
        exact absurd h (by simp)
termination_by sizeOf f
end

theorem collectAttrs_error_shape (doc : HForest) (l : List LC) (e : Err)
    (h : collectAttrs doc l = .error e) : e = .attributeError := by
  induction l with
  | nil =>
    simp only [collectAttrs] at h
    exact absurd h (by simp)
  | cons a rest ih =>
    cases h1 : collectAttrF a doc with
    | error e2 =>
      simp only [collectAttrs, h1] at h
      obtain rfl : e2 = e := Except.error.inj h
      exact collectAttrF_error_shape a doc e2 h1
    | ok es1 =>
      cases h2 : collectAttrs doc rest with
      | error e2 =>
        simp only [collectAttrs, h1, h2] at h
        obtain rfl : e2 = e := Except.error.inj h
        exact ih h2
      | ok es2 =>
        simp only [collectAttrs, h1, h2] at h
        exact absurd h (by simp)

theorem collect_entries_error_shape (doc : HForest) (e : Err)
    (h : collect_entries doc = .error e) : e = .attributeError := by
  cases hc : collectAttrs doc ATTRS_TO_TRANSLATE with
  | error e2 =>
    simp only [collect_entries, hc] at h
    obtain rfl : e2 = e := Except.error.inj h
    exact collectAttrs_error_shape doc _ e2 hc
  | ok es =>
    simp only [collect_entries, hc] at h
    exact absurd h (by simp)

theorem apply_translation_error_shape (en : Entry) (v : LC) (d : HForest) (e : Err)
    (h : apply_translation en v d = .error e) : e = .valueError := by
  cases en with
  | text i leading content trailing =>
    cases i with
    | some tid =>
      cases hr : replaceTextF tid (leading ++ v ++ trailing) d with
      | some d2 =>
        simp only [apply_translation, hr] at h
        exact absurd h (by simp)
      | none =>
        simp only [apply_translation, hr] at h
        exact (Except.error.inj h).symm
    | none =>
      simp only [apply_translation] at h
      exact (Except.error.inj h).symm
  | attr i a leading content trailing =>
    cases i with
    | some eid =>
      cases hm : mapFirstF (elemIdIs eid)
          (setNodeAttr a (.str (leading ++ v ++ trailing))) d with
      | some d2 =>
        simp only [apply_translation, hm] at h
        exact absurd h (by simp)
      | none =>
        simp only [apply_translation, hm] at h
        exact absurd h (by simp)
    | none =>
      simp only [apply_translation] at h
      exact absurd h (by simp)

theorem applyAll_error_shape (assigns : List (LC × LC)) (es : List Entry) (d : HForest)
    (e : Err) (h : applyAll assigns es d = .error e) :
    e = .valueError ∨ e = .keyError := by
  induction es generalizing d with
  | nil =>
    simp only [applyAll] at h
    exact absurd h (by simp)
  | cons en rest ih =>
    cases hl : lookupCache assigns en.content with
    | none =>
      simp only [applyAll, hl] at h
      exact .inr (Except.error.inj h).symm
    | some v =>
      cases ha : apply_translation en v d with
      | error err =>
        simp only [applyAll, hl, ha] at h
        obtain rfl : err = e := Except.error.inj h
        exact .inl (apply_translation_error_shape en v d err ha)
      | ok d2 =>
        simp only [applyAll, hl, ha] at h
        exact ih d2 h

theorem translateC_error_inv (remote : LC → Except Err LC) (st : CState) (t : LC)
    (e : Err) (h : translateC remote st t = .error e) : remote t = .error e := by
  cases hl : lookupCache st.cache t with
  | some v =>
    simp only [translateC, hl] at h
    exact absurd h (by simp)
  | none =>
    cases hr : remote t with
    | error e2 =>
      simp only [translateC, hl, hr] at h
      obtain rfl : e2 = e := Except.error.inj h
      rfl
    | ok tr =>
      simp only [translateC, hl, hr] at h
      exact absurd h (by simp)

theorem translateList_error_inv (remote : LC → Except Err LC) (st : CState)
    (l : List LC) (e : Err) (h : translateList remote st l = .error e) :
    ∃ t, remote t = .error e := by
  induction l generalizing st with
  | nil =>
    simp only [translateList] at h
    exact absurd h (by simp)
  | cons t rest ih =>
    cases hc : translateC remote st t with
    | error e2 =>
      simp only [translateList, hc] at h
      obtain rfl : e2 = e := Except.error.inj h
      exact ⟨t, translateC_error_inv remote st t e2 hc⟩
    | ok p =>
      obtain ⟨v, st2⟩ := p
      cases hrec : translateList remote st2 rest with
      | error e2 =>
        simp only [translateList, hc, hrec] at h
        obtain rfl : e2 = e := Except.error.inj h
        exact ih st2 hrec
      | ok q =>
        obtain ⟨assigns, st3⟩ := q
        simp only [translateList, hc, hrec] at h
        exact absurd h (by simp)

theorem translate_texts_exhausted_inv (remote : LC → Except Err LC) (st : CState)
    (es : List Entry) (d : HForest) (l : Option Nat)
    (h : translate_texts remote st es d = .error (.exhausted l)) :
    ∃ t, remote t = .error (.exhausted l) := by
  cases htl : translateList remote st (dedupFirst (es.map Entry.content)) with
  | error e =>
    simp only [translate_texts, htl] at h
    obtain rfl : e = Err.exhausted l := Except.error.inj h
    exact translateList_error_inv remote st _ _ htl
  | ok p =>
    obtain ⟨assigns, st2⟩ := p
    cases ha : applyAll assigns es d with
    | error e =>
      simp only [translate_texts, htl, ha] at h
      obtain rfl : e = Err.exhausted l := Except.error.inj h
      rcases applyAll_error_shape assigns es d _ ha with h1 | h1 <;>
        exact absurd h1 (by simp)
    | ok d2 =>
      simp only [translate_texts, htl, ha] at h
      exact absurd h (by simp)

theorem processDoc_exhausted_inv (remote : LC → Except Err LC) (st : CState)
    (doc : HForest) (l : Option Nat)
    (h : processDoc remote st doc = .error (.exhausted l)) :
    ∃ t, remote t = .error (.exhausted l) := by
  cases hadj : adjustDoc doc with
  | error e =>
    simp only [processDoc, hadj] at h
    obtain rfl : e = Err.exhausted l := Except.error.inj h
    exact absurd (adjustDoc_error_shape doc _ hadj) (by simp)
  | ok d1 =>
    cases hce : collect_entries d1 with
    | error e =>
      simp only [processDoc, hadj, hce] at h
      obtain rfl : e = Err.exhausted l := Except.error.inj h
      exact absurd (collect_entries_error_shape d1 _ hce) (by simp)
    | ok es =>
      simp only [processDoc, hadj, hce] at h
      exact translate_texts_exhausted_inv remote st es d1 l h

theorem translate_remote_exhausted_inv (att : Nat → Attempt) (l : Option Nat)
    (h : translate_remote att = .error (.exhausted l)) :
    ∃ c0 c1 c2, att 0 = .fail c0 ∧ att 1 = .fail c1 ∧ att 2 = .fail c2 ∧
      l = some c2 := by
  cases h0 : att 0 with
  | ok b0 =>
    cases hp : parseResponse b0 with
    | ok t =>
      simp only [translate_remote, remoteLoop, h0, hp] at h
      exact absurd h (by simp)
    | error e =>
      simp only [translate_remote, remoteLoop, h0, hp] at h
      obtain rfl : e = Err.exhausted l := Except.error.inj h
      exact absurd rfl (parseResponse_error_ne_exhausted b0 _ l hp)
  | fail c0 =>
    cases h1 : att 1 with
    | ok b1 =>
      cases hp : parseResponse b1 with
      | ok t =>
        simp only [translate_remote, remoteLoop, h0, h1, hp] at h
        exact absurd h (by simp)
      | error e =>
        simp only [translate_remote, remoteLoop, h0, h1, hp] at h
        obtain rfl : e = Err.exhausted l := Except.error.inj h
        exact absurd rfl (parseResponse_error_ne_exhausted b1 _ l hp)
    | fail c1 =>
      cases h2 : att 2 with
      | ok b2 =>
        cases hp : parseResponse b2 with
        | ok t =>
          simp only [translate_remote, remoteLoop, h0, h1, h2, hp] at h
          exact absurd h (by simp)
        | error e =>
          simp only [translate_remote, remoteLoop, h0, h1, h2, hp] at h
          obtain rfl : e = Err.exhausted l := Except.error.inj h
          exact absurd rfl (parseResponse_error_ne_exhausted b2 _ l hp)
      | fail c2 =>
        simp only [translate_remote, remoteLoop, h0, h1, h2] at h
        have he := Except.error.inj h
        have hl : some c2 = l := by
          cases he
          rfl
        exact ⟨c0, c1, c2, rfl, rfl, rfl, hl.symm⟩

/-- C8: when the run aborts with the terminal retry-exhaustion error (distinct
output names assumed, as produced by distinct discovered inputs), the files
written are exactly the outputs of the documents fully processed before the
failing one, the failing document's output name is not among them, and some
content string had all 3 of its request attempts fail at the transport level
with the terminal error carrying the last cause. -/
theorem run_abort_spec (att : LC → Nat → Attempt) (st0 : CState)
    (files : List (LC × HForest)) (written : List LC) (l : Option Nat)
    (hrun : runFiles (fun t => translate_remote (att t)) st0 files =
      (written, some (.exhausted l)))
    (hnodup : (files.map (fun f => outName f.1)).Nodup) :
    ∃ pre nm doc post, files = pre ++ (nm, doc) :: post ∧
      written = pre.map (fun f => outName f.1) ∧
      outName nm ∉ written ∧
      ∃ t c0 c1 c2, att t 0 = .fail c0 ∧ att t 1 = .fail c1 ∧ att t 2 = .fail c2 ∧
        l = some c2 := by
  induction files generalizing st0 written with
  | nil =>
    simp only [runFiles] at hrun
    exact absurd hrun (by simp)
  | cons fd rest ih =>
    obtain ⟨nm, doc⟩ := fd
    cases hp : processDoc (fun t => translate_remote (att t)) st0 doc with
    | error e =>
      simp only [runFiles, hp] at hrun
      rw [Prod.mk.injEq] at hrun
      obtain ⟨hw, he⟩ := hrun
      obtain rfl : e = Err.exhausted l := Option.some.inj he
      refine ⟨[], nm, doc, rest, rfl, hw.symm, by rw [← hw]; simp, ?_⟩
      obtain ⟨t, ht⟩ := processDoc_exhausted_inv _ st0 doc l hp
      obtain ⟨c0, c1, c2, h0, h1, h2, hl⟩ := translate_remote_exhausted_inv (att t) l ht
      exact ⟨t, c0, c1, c2, h0, h1, h2, hl⟩
    | ok p =>
      obtain ⟨d2, st2⟩ := p
      cases hr : runFiles (fun t => translate_remote (att t)) st2 rest with
      | mk ws err =>
        simp only [runFiles, hp, hr] at hrun
        rw [Prod.mk.injEq] at hrun
        obtain ⟨hw, he⟩ := hrun
        subst he
        simp only [List.map_cons] at hnodup
        rw [List.nodup_cons] at hnodup
        obtain ⟨hnin, hnd⟩ := hnodup
        obtain ⟨pre, nm2, doc2, post, hfiles, hws, hnot, hT⟩ := ih st2 ws hr hnd
        refine ⟨(nm, doc) :: pre, nm2, doc2, post, ?_, ?_, ?_, hT⟩
        · rw [hfiles]
          rfl
        · rw [← hw, hws]
          rfl
        · rw [← hw]
          intro hmem
          rcases List.mem_cons.mp hmem with heq | hmem2
          · have hin : outName nm2 ∈ rest.map (fun f => outName f.1) := by
              rw [hfiles, List.map_append, List.map_cons]
              exact List.mem_append_right _ (List.mem_cons_self _ _)
            rw [heq] at hin
            exact hnin hin
          · exact hnot hmem2

def attAllFail : LC → Nat → Attempt := fun _ i => .fail (10 + i)

def failDoc : HForest := .cons (.text (some 0) (lc "Hi")) .nil

/-- Witness: a one-document run whose only content string fails all 3 attempts;
nothing is written and the terminal error carries the last cause. -/
theorem run_abort_spec_witness :
    (runFiles (fun t => translate_remote (attAllFail t)) ⟨[], 0⟩
        [(lc "a.html", failDoc)] = ([], some (.exhausted (some 12)))) ∧
    (([(lc "a.html", failDoc)].map (fun f => outName f.1)).Nodup) ∧
    (∃ pre nm doc post,
      [(lc "a.html", failDoc)] = pre ++ (nm, doc) :: post ∧
      ([] : List LC) = pre.map (fun f => outName f.1) ∧
      outName nm ∉ ([] : List LC) ∧
      ∃ t c0 c1 c2, attAllFail t 0 = .fail c0 ∧ attAllFail t 1 = .fail c1 ∧
        attAllFail t 2 = .fail c2 ∧ (some 12 : Option Nat) = some c2) :=
  ⟨by decide, by decide,
    run_abort_spec attAllFail ⟨[], 0⟩ [(lc "a.html", failDoc)] [] (some 12) (by decide)
      (by decide)⟩
